import Mathlib

/-
Verification of the qiita-sync synchronizer (ryokat3/qiita-sync).

Shallow embedding of the core logic of src/qiita_sync/qiita_sync.py
(and, where noted, of the legacy revision src/src/qiita_sync.py).
Strings are modelled as `List Char`; Python string helpers (strip,
splitlines, split, sorted, lower) are reproduced for the ASCII range
actually exercised by the embedded code.  `os.linesep` is modelled as
a single newline, matching the Linux hosts the tool targets.
-/

set_option maxRecDepth 10000

/-- Convert a Lean string literal to the `List Char` representation used
throughout this development. -/
def strL (s : String) : List Char := s.data

/-- The whitespace characters of Python `str`: `str.isspace`, `str.strip` and
regex `\s` agree on this set — the ASCII blanks, the C0 information
separators (0x1c-0x1f), NEL (0x85), NBSP (0xa0) and the Unicode space, line
and paragraph separators. -/
def pySpaceChars : List Char :=
  ['\t', '\n', '\x0b', '\x0c', '\r', Char.ofNat 28, Char.ofNat 29,
   Char.ofNat 30, Char.ofNat 31, ' ', Char.ofNat 133, Char.ofNat 160,
   Char.ofNat 5760, Char.ofNat 8192, Char.ofNat 8193, Char.ofNat 8194,
   Char.ofNat 8195, Char.ofNat 8196, Char.ofNat 8197, Char.ofNat 8198,
   Char.ofNat 8199, Char.ofNat 8200, Char.ofNat 8201, Char.ofNat 8202,
   Char.ofNat 8232, Char.ofNat 8233, Char.ofNat 8239, Char.ofNat 8287,
   Char.ofNat 12288]

/-- Python `str.isspace` / `str.strip` / regex `\s` test. -/
def pyIsSpace (c : Char) : Bool := pySpaceChars.contains c

/-- Regex `\w` word-character test, ASCII range (letters, digits, underscore). -/
def isWordChar (c : Char) : Bool :=
  c.isAlphanum || c = '_'

/-- Python `str.lower` on one character, ASCII range. -/
def pyLowerChar (c : Char) : Char :=
  if 'A' ≤ c && c ≤ 'Z' then Char.ofNat (c.toNat + 32) else c

/-- Python `str.lower`, ASCII range. -/
def pyLower (s : List Char) : List Char := s.map pyLowerChar

/-- Python `str.lstrip()`. -/
def pyLstrip (s : List Char) : List Char := s.dropWhile pyIsSpace

/-- Python `str.rstrip()`. -/
def pyRstrip (s : List Char) : List Char := (s.reverse.dropWhile pyIsSpace).reverse

/-- Python `str.strip()`. -/
def pyStrip (s : List Char) : List Char := pyRstrip (pyLstrip s)

/-- The line-boundary characters of Python `str.splitlines`: LF, VT, FF, CR,
the C0 file/group/record separators (0x1c-0x1e), NEL (0x85) and the Unicode
line and paragraph separators (0x2028, 0x2029). -/
def pyLineBreakChars : List Char :=
  ['\n', '\x0b', '\x0c', '\r', Char.ofNat 28, Char.ofNat 29, Char.ofNat 30,
   Char.ofNat 133, Char.ofNat 8232, Char.ofNat 8233]

/-- Whether a character ends a line for Python `str.splitlines`. -/
def pyIsLineBreak (c : Char) : Bool := pyLineBreakChars.contains c

/-- Helper for `pySplitlines`: accumulates the current line (reversed).
Any line-boundary character ends the line, with CRLF counting as one
terminator; a terminator at the very end of the input does not open a new
line. -/
def splitlinesAux : List Char → List Char → List (List Char)
  | [], acc => [acc.reverse]
  | c :: rest, acc =>
    if c = '\r' then
      match rest with
      | [] => [acc.reverse]
      | d :: rest2 =>
        if d = '\n' then
          if rest2.isEmpty then [acc.reverse]
          else acc.reverse :: splitlinesAux rest2 []
        else acc.reverse :: splitlinesAux (d :: rest2) []
    else if pyIsLineBreak c then
      if rest.isEmpty then [acc.reverse] else acc.reverse :: splitlinesAux rest []
    else splitlinesAux rest (c :: acc)

/-- Python `str.splitlines()`: splits at every line-boundary character of
`pyLineBreakChars`, with CRLF as a single terminator; a terminator at the
very end does not open a final empty line; the empty string has no lines. -/
def pySplitlines (s : List Char) : List (List Char) :=
  if s.isEmpty then [] else splitlinesAux s []

/-- Python `str.split(sep)` for a one-character separator (no maxsplit). -/
def splitOnAux (sep : Char) : List Char → List Char → List (List Char)
  | [], acc => [acc.reverse]
  | c :: rest, acc =>
    if c = sep then acc.reverse :: splitOnAux sep rest []
    else splitOnAux sep rest (c :: acc)

/-- Python `str.split(sep)` for a one-character separator. -/
def pySplitOn (sep : Char) (s : List Char) : List (List Char) :=
  splitOnAux sep s []

/-- Python `str.split(sep, 1)` for a one-character separator: `none` when the
separator does not occur, otherwise the parts before and after its first
occurrence. -/
def splitFirst (sep : Char) : List Char → Option (List Char × List Char)
  | [] => none
  | c :: rest =>
    if c = sep then some ([], rest)
    else
      match splitFirst sep rest with
      | some (a, b) => some (c :: a, b)
      | none => none

/-- Python string comparison `<` (lexicographic by code point). -/
def pyStrLt : List Char → List Char → Bool
  | [], [] => false
  | [], _ :: _ => true
  | _ :: _, [] => false
  | a :: as, b :: bs =>
    if a.val < b.val then true
    else if b.val < a.val then false
    else pyStrLt as bs

/-- Python comparison `<` on tuples of strings (lexicographic). -/
def pyStrListLt : List (List Char) → List (List Char) → Bool
  | [], [] => false
  | [], _ :: _ => true
  | _ :: _, [] => false
  | a :: as, b :: bs =>
    if pyStrLt a b then true
    else if pyStrLt b a then false
    else pyStrListLt as bs

/-- Stable insertion used to model Python `sorted` (Timsort is stable; a
stable sort's output is uniquely determined by the strict order). -/
def insertSorted (lt : α → α → Bool) (x : α) : List α → List α
  | [] => [x]
  | y :: ys => if lt x y then x :: y :: ys else y :: insertSorted lt x ys

/-- Python `sorted(xs)` for the strict comparison `lt` (stable). -/
def pySorted (lt : α → α → Bool) (xs : List α) : List α :=
  xs.foldl (fun acc x => insertSorted lt x acc) []

/-- Join pieces with a one-character separator (Python `sep.join`). -/
def joinSep (sep : Char) : List (List Char) → List Char
  | [] => []
  | [x] => x
  | x :: xs => x ++ sep :: joinSep sep xs

/-- The source's `str2bool`: false on the empty string, else membership of the
lower-cased text in y/yes/t/true/on/1. -/
def str2bool (s : List Char) : Bool :=
  if s.isEmpty then false
  else
    [strL "y", strL "yes", strL "t", strL "true", strL "on", strL "1"].contains (pyLower s)

/-- The source's `markdown_normalize`: rejoin the lines with LF after
deleting each line's trailing whitespace (regex `\s*$`). -/
def markdown_normalize (text : List Char) : List Char :=
  joinSep '\n' ((pySplitlines text).map pyRstrip)

/-!  Qiita data model (`QiitaTag`, `QiitaTags`, `QiitaData`, `GitHubArticle`). -/

/-- The source's `QiitaTag` named tuple. -/
structure QiitaTag where
  name : List Char
  versions : List (List Char)
deriving Repr, DecidableEq

/-- Python tuple ordering on `QiitaTag` (used by `sorted`): name by code
point, then the versions tuple.  `QiitaTag` overrides `__eq__` but not
`__lt__`, so sorting uses the inherited tuple comparison. -/
def tagLt (a b : QiitaTag) : Bool :=
  if pyStrLt a.name b.name then true
  else if pyStrLt b.name a.name then false
  else pyStrListLt a.versions b.versions

/-- The source's `QiitaTag.__eq__`: name case-insensitive, versions exact. -/
def tagEq (a b : QiitaTag) : Bool :=
  pyLower a.name == pyLower b.name && a.versions == b.versions

/-- Python tuple equality on `QiitaTags` (elementwise `QiitaTag.__eq__`). -/
def tagsEq : List QiitaTag → List QiitaTag → Bool
  | [], [] => true
  | a :: as, b :: bs => tagEq a b && tagsEq as bs
  | _, _ => false

/-- The source's `QiitaTag.fromString`: split once at `=`; versions are
sorted; no `=` means no versions. -/
def QiitaTag.fromString (text : List Char) : QiitaTag :=
  match splitFirst '=' text with
  | some (a, b) => { name := a, versions := pySorted pyStrLt (pySplitOn '|' b) }
  | none => { name := text, versions := [] }

/-- The source's `QiitaTag.__str__`. -/
def tagToString (t : QiitaTag) : List Char :=
  if t.versions.isEmpty then t.name else t.name ++ '=' :: joinSep '|' t.versions

/-- The source's `QiitaTags.fromString`: split at commas, parse, sort. -/
def QiitaTags.fromString (text : List Char) : List QiitaTag :=
  pySorted tagLt ((pySplitOn ',' text).map QiitaTag.fromString)

/-- The source's `QiitaTags.__str__`. -/
def tagsToString (ts : List QiitaTag) : List Char :=
  joinSep ',' (ts.map tagToString)

/-- The source's `QiitaData` named tuple (`private` is a Lean keyword, so the
field is called `priv`). -/
structure QiitaData where
  title : List Char
  tags : List QiitaTag
  id : Option (List Char)
  priv : Bool
deriving Repr, DecidableEq

/-- The source's `QiitaData.__eq__`: only `title` and `tags` take part. -/
def dataEq (a b : QiitaData) : Bool :=
  a.title == b.title && tagsEq a.tags b.tags

/-- The source's `QiitaData.__str__`: the aligned `key: value` lines, with the
`id` line present only when `id` is set. -/
def dataToString (d : QiitaData) : List Char :=
  joinSep '\n'
    ([strL "title:   " ++ d.title, strL "tags:    " ++ tagsToString d.tags]
      ++ (match d.id with
          | some i => [strL "id:      " ++ i]
          | none => [])
      ++ [strL "private: " ++ (if d.priv then strL "true" else strL "false")])

/-- Recognize and split a metadata line, as the source's
`re.match(r"^\s*\w+\s*:.*\S", line)` filter followed by `line.split(":", 1)`
and stripping of both parts. -/
def parseDataLine (l : List Char) : Option (List Char × List Char) :=
  let l1 := l.dropWhile pyIsSpace
  let w := l1.takeWhile isWordChar
  let l2 := (l1.dropWhile isWordChar).dropWhile pyIsSpace
  if w.isEmpty then none
  else
    match l2 with
    | c :: rest =>
      if c = ':' then
        if rest.any (fun c => !pyIsSpace c) then
          match splitFirst ':' l with
          | some (k, v) => some (pyStrip k, pyStrip v)
          | none => none
        else none
      else none
    | [] => none

/-- Last binding of a key wins, as in Python's `dict` built from a list. -/
def lookupLast (k : List Char) (entries : List (List Char × List Char)) :
    Option (List Char) :=
  ((entries.filter (fun e => e.1 == k)).getLast?).map (·.2)

/-- The source's `QiitaData.fromString` with its two defaults. -/
def QiitaData.fromString (text dTitle dTags : List Char) : QiitaData :=
  let entries := (pySplitlines text).filterMap parseDataLine
  { title := (lookupLast (strL "title") entries).getD dTitle
    tags := QiitaTags.fromString ((lookupLast (strL "tags") entries).getD dTags)
    id := lookupLast (strL "id") entries
    priv := ((lookupLast (strL "private") entries).map str2bool).getD false }

/-- First `^#+\s+(.*)$` heading of a line, stripped (the source's
`qiita_get_first_section` per-line matcher). -/
def firstSectionLine (l : List Char) : Option (List Char) :=
  let hs := l.takeWhile (· = '#')
  if hs.isEmpty then none
  else
    let r := l.drop hs.length
    let ws := r.takeWhile pyIsSpace
    if ws.isEmpty then none else some (pyStrip (r.drop ws.length))

/-- First `(\S+)` token of a line (the source's `qiita_get_first_line`
per-line matcher). -/
def firstLineToken (l : List Char) : Option (List Char) :=
  let t := l.takeWhile (fun c => !pyIsSpace c)
  if t.isEmpty then none else some t

/-- The source's `qiita_get_temporary_title`. -/
def qiita_get_temporary_title (body : List Char) : List Char :=
  match ((pySplitlines body).filterMap firstSectionLine).head? with
  | some t => t
  | none =>
    match ((pySplitlines body).filterMap firstLineToken).head? with
    | some t => t
    | none => strL "No Title"

/-- The source's `qiita_get_temporary_tags` (constant default). -/
def qiita_get_temporary_tags (_body : List Char) : List Char := strL "No Tag"

/-- The source's `GitHubArticle` named tuple; the timestamp is abstracted to
an integer (only its ordering is used) and the file path to a string. -/
structure GitHubArticle where
  data : QiitaData
  body : List Char
  timestamp : Int
  filepath : List Char
deriving Repr, DecidableEq

/-- The source's `GitHubArticle.__eq__`: metadata equality plus stripped-body
equality; timestamp and path are ignored. -/
def articleEq (a b : GitHubArticle) : Bool :=
  dataEq a.data b.data && pyStrip a.body == pyStrip b.body

/-- The source's `GitHubArticle.toText` with `os.linesep` = LF. -/
def GitHubArticle.toText (a : GitHubArticle) : List Char :=
  strL "<!--" ++ '\n' :: dataToString a.data ++ '\n' :: strL "-->" ++ '\n' :: a.body

/-- Lazy search for `(.*?)\s\-\-\>` of HEADER_REGEX: the first position whose
character is whitespace and is followed by the literal `-->`.  Returns the
text before that position (group 1) and the text after the arrow (group 2). -/
def findHeaderEnd : List Char → Option (List Char × List Char)
  | [] => none
  | c :: rest =>
    match rest with
    | x :: y :: z :: rest2 =>
      if pyIsSpace c && x = '-' && y = '-' && z = '>' then some ([], rest2)
      else
        match findHeaderEnd rest with
        | some (a, b) => some (c :: a, b)
        | none => none
    | _ =>
      match findHeaderEnd rest with
      | some (a, b) => some (c :: a, b)
      | none => none

/-- HEADER_REGEX `^\s*\<\!\-\-\s(.*?)\s\-\-\>(.*)$` (MULTILINE, DOTALL),
anchored at the start as used through `re.match`.  Returns groups 1 and 2. -/
def headerMatch (t : List Char) : Option (List Char × List Char) :=
  match t.dropWhile pyIsSpace with
  | a :: b :: c :: d :: e :: rest =>
    if a = '<' && b = '!' && c = '-' && d = '-' && pyIsSpace e then
      findHeaderEnd rest
    else none
  | _ => none

/-- The source's `GitHubArticle.fromFile`, applied to the text read from the
file; the timestamp (file mtime or committer date) and path are passed in. -/
def GitHubArticle.fromText (text : List Char) (timestamp : Int)
    (filepath : List Char) : GitHubArticle :=
  let m := headerMatch text
  let body := match m with | some (_, g2) => g2 | none => text
  let header := match m with | some (g1, _) => g1 | none => []
  { data := QiitaData.fromString header (qiita_get_temporary_title body)
      (qiita_get_temporary_tags body)
    body := markdown_normalize body
    timestamp := timestamp
    filepath := filepath }

/-!  Sync status classification (`qsync_get_sync_status`). -/

/-- The source's `SyncStatus` enumeration. -/
inductive SyncStatus where
  | GITHUB_ONLY
  | QIITA_ONLY
  | GITHUB_NEW
  | QIITA_NEW
  | QIITA_DELETED
  | SYNC
  | CONFLICT
deriving Repr, DecidableEq

open SyncStatus

/-- The source's `qsync_get_sync_status`.  The second argument stands for
`Maybe(get_qiita_article(id)).map(toGitHubArticle)`: the remote article
already converted to local form, or `none` when the lookup found nothing
(the conversion preserves none-ness, so it is taken as the input here). -/
def qsync_get_sync_status (g : GitHubArticle) (lq : Option GitHubArticle) :
    SyncStatus × Option GitHubArticle :=
  match g.data.id with
  | none => (GITHUB_ONLY, none)
  | some _ =>
    match lq with
    | none => (QIITA_DELETED, none)
    | some l =>
      if articleEq g l then (SYNC, some l)
      else if g.timestamp > l.timestamp then (GITHUB_NEW, some l)
      else if g.timestamp < l.timestamp then (QIITA_NEW, some l)
      else (CONFLICT, some l)

/-- The classification algorithm exactly as the claim narrates it: id absent
means local-only; failed lookup means remote-deleted; content equality takes
precedence and yields in-sync; then strict timestamp comparison; equal
timestamps with unequal content conflict. -/
def syncStatusSpec (g : GitHubArticle) (lq : Option GitHubArticle) :
    SyncStatus :=
  match g.data.id, lq with
  | none, _ => GITHUB_ONLY
  | some _, none => QIITA_DELETED
  | some _, some l =>
    if articleEq g l then SYNC
    else if l.timestamp < g.timestamp then GITHUB_NEW
    else if g.timestamp < l.timestamp then QIITA_NEW
    else CONFLICT

/-- C2: the classification implemented by `qsync_get_sync_status` coincides,
on every input, with the algorithm the claim narrates (`syncStatusSpec`):
absent id gives GITHUB_ONLY, failed lookup gives QIITA_DELETED, content
equality takes precedence over any timestamp ordering and gives SYNC, then
strictly newer local gives GITHUB_NEW, strictly newer remote gives
QIITA_NEW, and equal timestamps with unequal content give CONFLICT.  Being
a total function, it classifies every input combination into exactly one
state. -/
theorem sync_status_follows_claimed_algorithm (g : GitHubArticle)
    (lq : Option GitHubArticle) :
    (qsync_get_sync_status g lq).1 = syncStatusSpec g lq := by
  unfold qsync_get_sync_status syncStatusSpec
  cases hid : g.data.id with
  | none => rfl
  | some i =>
    cases lq with
    | none => rfl
    | some l =>
      by_cases heq : articleEq g l
      · simp [heq]
      · by_cases hgt : l.timestamp < g.timestamp
        · simp [heq, hgt, gt_iff_lt]
        · by_cases hlt : g.timestamp < l.timestamp <;>
            simp [heq, hgt, hlt, gt_iff_lt]

/-- C10: on every input the pair returned by `qsync_get_sync_status`
satisfies the invariant: the status is never QIITA_ONLY, the companion
article is `none` exactly for GITHUB_ONLY and QIITA_DELETED, and it is
present exactly for SYNC, GITHUB_NEW, QIITA_NEW and CONFLICT. -/
theorem sync_status_pair_invariant (g : GitHubArticle)
    (lq : Option GitHubArticle) :
    (qsync_get_sync_status g lq).1 ≠ QIITA_ONLY ∧
    ((qsync_get_sync_status g lq).2 = none ↔
      ((qsync_get_sync_status g lq).1 = GITHUB_ONLY ∨
       (qsync_get_sync_status g lq).1 = QIITA_DELETED)) ∧
    ((qsync_get_sync_status g lq).2.isSome ↔
      ((qsync_get_sync_status g lq).1 = SYNC ∨
       (qsync_get_sync_status g lq).1 = GITHUB_NEW ∨
       (qsync_get_sync_status g lq).1 = QIITA_NEW ∨
       (qsync_get_sync_status g lq).1 = CONFLICT)) := by
  unfold qsync_get_sync_status
  cases hid : g.data.id with
  | none => simp
  | some i =>
    cases lq with
    | none => simp
    | some l =>
      by_cases heq : articleEq g l
      · simp [heq]
      · by_cases hgt : g.timestamp > l.timestamp
        · simp [heq, hgt]
        · by_cases hlt : g.timestamp < l.timestamp <;> simp [heq, hgt, hlt]

/-!  Remote item listing (`qiita_get_item_page` / `qiita_get_item_list`).
The REST caller plus JSON decoding is abstracted as a function from the page
number to the decoded response: `none` models a null response,
`some items` a JSON array. -/

/-- The source's `qiita_get_item_page` over the abstracted caller. -/
def qiita_get_item_page (pages : Nat → Option (List α)) (page : Nat) :
    Option (List α) :=
  pages page

/-- The `takewhile` stop test of `qiita_get_item_list`: a response that is
null or an empty list terminates the pagination. -/
def pageEnds (r : Option (List α)) : Bool :=
  match r with
  | none => true
  | some [] => true
  | some (_ :: _) => false

/-- The source's `qiita_get_item_list` pipeline
`reduce(+, filter(None, takewhile(nonempty, map(get_page, count(1)))), [])`,
instrumented with the trace of pages actually fetched.  The lazy infinite
`count(1)` is rendered with explicit fuel; the first component is the list
of page numbers passed to `qiita_get_item_page`, the second the reduced
item list. -/
def qiita_item_pages_trace (pages : Nat → Option (List α)) :
    Nat → Nat → List Nat × List α
  | 0, _ => ([], [])
  | fuel + 1, p =>
    match qiita_get_item_page pages p with
    | none => ([p], [])
    | some [] => ([p], [])
    | some (x :: xs) =>
      let r := qiita_item_pages_trace pages fuel (p + 1)
      (p :: r.1, (x :: xs) ++ r.2)

/-- The source's `qiita_get_item_list` (the value it returns). -/
def qiita_get_item_list (pages : Nat → Option (List α)) (fuel : Nat) :
    List α :=
  (qiita_item_pages_trace pages fuel 1).2

/-- Helper for the pagination claim, generalized over the starting page. -/
theorem qiita_item_pages_trace_eq (pages : Nat → Option (List α)) (k : Nat)
    (hend : pageEnds (pages k) = true) :
    ∀ fuel p, 1 ≤ p → p ≤ k → k < p + fuel →
    (∀ i, p ≤ i → i < k → pageEnds (pages i) = false) →
    qiita_item_pages_trace pages fuel p =
      (List.range' p (k - p + 1),
       (List.range' p (k - p)).flatMap (fun i => (pages i).getD [])) := by
  intro fuel
  induction fuel with
  | zero => intro p _ hpk hlt _; omega
  | succ fuel ih =>
    intro p hp hpk hlt hfull
    rcases Nat.eq_or_lt_of_le hpk with heq | hlt2
    · subst heq
      unfold qiita_item_pages_trace qiita_get_item_page
      rcases hpg : pages p with _ | ⟨_ | ⟨x, xs⟩⟩
      · simp [Nat.sub_self, List.range'_one]
      · simp [Nat.sub_self, List.range'_one]
      · rw [hpg] at hend; simp [pageEnds] at hend
    · have hne : pageEnds (pages p) = false := hfull p le_rfl hlt2
      rcases hpg : pages p with _ | ⟨_ | ⟨x, xs⟩⟩
      · rw [hpg] at hne; simp [pageEnds] at hne
      · rw [hpg] at hne; simp [pageEnds] at hne
      have ihp := ih (p + 1) (by omega) (by omega) (by omega)
        (fun i h1 h2 => hfull i (by omega) h2)
      unfold qiita_item_pages_trace qiita_get_item_page
      rw [hpg, ihp]
      have h1 : k - p + 1 = (k - (p + 1) + 1) + 1 := by omega
      have h2 : k - p = (k - (p + 1)) + 1 := by omega
      rw [h1, h2, List.range'_succ, List.range'_succ]
      simp [hpg]
      constructor
      · rw [List.range'_succ]
      · rw [List.range'_succ]; simp [hpg]

/-- C7: when every page before `k` is non-empty and page `k` is the first
empty-or-null page, the listing fetches exactly pages `1, 2, ..., k` in
strictly increasing order (one call per page, including the terminating
page) and returns the concatenation, in page order, of the items of pages
`1` to `k - 1`. -/
theorem pagination_fetches_in_order_and_concatenates
    (pages : Nat → Option (List α)) (k fuel : Nat)
    (hk : 1 ≤ k) (hfuel : k ≤ fuel)
    (hend : pageEnds (pages k) = true)
    (hfull : ∀ i, 1 ≤ i → i < k → pageEnds (pages i) = false) :
    (qiita_item_pages_trace pages fuel 1).1 = List.range' 1 k ∧
    qiita_get_item_list pages fuel =
      (List.range' 1 (k - 1)).flatMap (fun i => (pages i).getD []) := by
  have h := qiita_item_pages_trace_eq pages k hend fuel 1 le_rfl hk
    (by omega) (fun i h1 h2 => hfull i h1 h2)
  have hk1 : k - 1 + 1 = k := by omega
  constructor
  · rw [h, hk1]
  · unfold qiita_get_item_list
    rw [h]

/-- C7 witness: two pages of items followed by an empty page: pages 1, 2, 3
are fetched and exactly the six items of pages 1 and 2 are returned. -/
theorem pagination_witness :
    (1:Nat) ≤ 3 ∧ (3:Nat) ≤ 5 ∧
    (qiita_item_pages_trace
      (fun n => if n = 1 then some [10, 20, 30] else if n = 2 then some [40, 50, 60]
                else some ([] : List Nat)) 5 1).1 = [1, 2, 3] ∧
    qiita_get_item_list
      (fun n => if n = 1 then some [10, 20, 30] else if n = 2 then some [40, 50, 60]
                else some ([] : List Nat)) 5 = [10, 20, 30, 40, 50, 60] := by
  have h := pagination_fetches_in_order_and_concatenates
    (fun n => if n = 1 then some [10, 20, 30] else if n = 2 then some [40, 50, 60]
              else some ([] : List Nat)) 3 5
    (by decide) (by decide) (by decide)
    (by intro i h1 h2
        have h3 : i = 1 ∨ i = 2 := by omega
        rcases h3 with h3 | h3 <;> subst h3 <;> decide)
  exact ⟨by decide, by decide, h.1, by rw [h.2]; decide⟩

/-!  Qiita API callers and the HTTP 429 behavior.  The HTTP transport is
abstracted as a function from the attempt number to the outcome of
performing the same request once: a successful response or an `HTTPError`
with its status code. -/

/-- Outcome of one HTTP attempt. -/
inductive HttpOutcome (α : Type) where
  | success (resp : α)
  | httpError (code : Nat)
deriving Repr, DecidableEq

/-- Does the outcome carry an HTTP 429 (rate-limited) error? -/
def is429 : HttpOutcome α → Bool
  | HttpOutcome.httpError c => c == 429
  | HttpOutcome.success _ => false

/-- The current package's `qiita_build_caller`
(src/qiita_sync/qiita_sync.py): the closure performs `restapi_call` once,
with no exception handling, so whatever the transport produces — including
an HTTP 429 error — is what the caller's caller sees.  Returns the outcome
together with the list of attempt numbers performed. -/
def qiita_build_caller (transport : Nat → HttpOutcome α) :
    HttpOutcome α × List Nat :=
  (transport 0, [0])

/-- The legacy revision's `qiita_build_caller` (src/src/qiita_sync.py):
`restapi_call` wrapped in a handler that retries the same request
immediately when the `HTTPError` code is 429 and re-raises any other error.
The unbounded recursion is rendered with fuel; exhausted fuel (unreachable
under this development's hypotheses) is reported as the pending 429. -/
def qiita_build_caller_legacy (transport : Nat → HttpOutcome α) :
    Nat → Nat → HttpOutcome α × List Nat
  | 0, _ => (HttpOutcome.httpError 429, [])
  | fuel + 1, n =>
    match transport n with
    | HttpOutcome.success v => (HttpOutcome.success v, [n])
    | HttpOutcome.httpError c =>
      if c = 429 then
        let r := qiita_build_caller_legacy transport fuel (n + 1)
        (r.1, n :: r.2)
      else (HttpOutcome.httpError c, [n])

/-- Helper: the legacy caller, started at attempt `n`, walks through the
leading 429 responses one by one and returns the first non-429 outcome. -/
theorem qiita_build_caller_legacy_eq (transport : Nat → HttpOutcome α)
    (k : Nat) :
    ∀ fuel n, n ≤ k → k < n + fuel →
    (∀ i, n ≤ i → i < k → is429 (transport i) = true) →
    is429 (transport k) = false →
    qiita_build_caller_legacy transport fuel n =
      (transport k, List.range' n (k - n + 1)) := by
  intro fuel
  induction fuel with
  | zero => intro n _ hlt _ _; omega
  | succ fuel ih =>
    intro n hnk hlt h429 hk
    rcases Nat.eq_or_lt_of_le hnk with heq | hlt2
    · subst heq
      unfold qiita_build_caller_legacy
      rcases htr : transport n with v | c
      · simp [Nat.sub_self, List.range'_one]
      · rw [htr] at hk
        have hc : ¬ c = 429 := by simpa [is429] using hk
        simp [Nat.sub_self, List.range'_one, hc]
    · have h1 : is429 (transport n) = true := h429 n le_rfl hlt2
      rcases htr : transport n with v | c
      · rw [htr] at h1; simp [is429] at h1
      · have hc : c = 429 := by
          rw [htr] at h1; simpa [is429] using h1
        subst hc
        have ihp := ih (n + 1) (by omega) (by omega)
          (fun i hi1 hi2 => h429 i (by omega) hi2) hk
        unfold qiita_build_caller_legacy
        rw [htr, ihp]
        have h2 : k - n + 1 = (k - (n + 1) + 1) + 1 := by omega
        rw [h2, List.range'_succ, List.range'_succ]
        simp [List.range'_succ]

/-- C9 counterexample: with the current package's caller (the caller the
program builds in `qiita_create_caller`), a transport that answers HTTP 429
produces exactly one attempt and the 429 error is returned to the caller —
it is not retried and not swallowed, contradicting the claim that a 429
triggers an unconditional retry and is never propagated. -/
theorem rate_limit_429_propagates_in_current_caller :
    qiita_build_caller (fun _ => HttpOutcome.httpError (α := Unit) 429) =
      (HttpOutcome.httpError 429, [0]) ∧
    is429 (qiita_build_caller (fun _ => HttpOutcome.httpError (α := Unit) 429)).1 = true :=
  ⟨rfl, rfl⟩

/-- C9 amended: only the legacy revision's caller retries on HTTP 429 —
immediately, unconditionally and without cap — returning the first non-429
outcome (so a 429 never reaches its caller); the current package's caller
performs a single attempt and hands whatever outcome arises — a 429
included — to its caller. -/
theorem rate_limit_retry_is_legacy_behavior (transport : Nat → HttpOutcome α)
    (k fuel : Nat) (hlt : k < fuel)
    (h429 : ∀ i, i < k → is429 (transport i) = true)
    (hk : is429 (transport k) = false) :
    qiita_build_caller_legacy transport fuel 0 =
      (transport k, List.range' 0 (k + 1)) ∧
    is429 (qiita_build_caller_legacy transport fuel 0).1 = false ∧
    qiita_build_caller transport = (transport 0, [0]) := by
  have h := qiita_build_caller_legacy_eq transport k fuel 0 (Nat.zero_le k)
    (by omega) (fun i _ hi => h429 i hi) hk
  refine ⟨by simpa using h, ?_, rfl⟩
  rw [h]
  exact hk

/-- C9 witness: two rate-limited attempts then success with response 7: the
legacy caller performs attempts 0, 1, 2 and returns the success, which is
not a 429. -/
theorem rate_limit_retry_witness :
    qiita_build_caller_legacy
      (fun i => if i < 2 then HttpOutcome.httpError (α := Nat) 429
                else HttpOutcome.success 7) 9 0 =
      (HttpOutcome.success 7, [0, 1, 2]) := by
  have h := rate_limit_retry_is_legacy_behavior
    (fun i => if i < 2 then HttpOutcome.httpError (α := Nat) 429
              else HttpOutcome.success 7) 2 9
    (by decide)
    (by intro i hi
        have h2 : i = 0 ∨ i = 1 := by omega
        rcases h2 with h2 | h2 <;> subst h2 <;> decide)
    (by decide)
  rw [h.1]
  decide

/-!  Prune dispatch (`qsync_do_prune`).  Side effects are modelled as an
effect list returned in order; a raised exception is an `Except.error`
carrying the message, and aborts the remaining effects of the handler. -/

/-- Side effects a prune dispatch can perform. -/
inductive PruneEffect where
  | deleteRemote (id : List Char)
  | removeLocal (path : List Char)
  | uploadRemote (path : List Char)
  | saveLocal (path : List Char)
  | printDeleted (path : List Char)
deriving Repr, DecidableEq

/-- The source's `QiitaSync.delete`: delete the remote item when the id is
present, otherwise raise `ApplicationFileError` having performed nothing. -/
def QiitaSync.delete (g : GitHubArticle) : Except (List Char) (List PruneEffect) :=
  match g.data.id with
  | some i => Except.ok [PruneEffect.deleteRemote i]
  | none => Except.error (g.filepath ++ strL " has no id")

/-- The source's `qsync_do_prune`.  The `filepath is not None` guards are
vacuous in the model because the `GitHubArticle` tuple always carries a
path (its declared type is `Path`, and every constructor site supplies
one); the branch structure is otherwise verbatim.  In the `private` branch
an exception from `QiitaSync.delete` aborts the handler before
`os.remove`. -/
def qsync_do_prune (status : SyncStatus) (g : GitHubArticle)
    (lq : Option GitHubArticle) : Except (List Char) (List PruneEffect) :=
  if g.data.priv then
    match QiitaSync.delete g with
    | Except.ok effs => Except.ok (effs ++ [PruneEffect.removeLocal g.filepath])
    | Except.error e => Except.error e
  else
    match status with
    | GITHUB_ONLY => Except.ok [PruneEffect.removeLocal g.filepath]
    | QIITA_ONLY =>
      match lq with
      | some l =>
        match l.data.id with
        | some i => Except.ok [PruneEffect.deleteRemote i]
        | none => Except.ok []
      | none => Except.ok []
    | GITHUB_NEW => Except.ok [PruneEffect.uploadRemote g.filepath]
    | QIITA_NEW =>
      match lq with
      | some l => Except.ok [PruneEffect.saveLocal l.filepath]
      | none => Except.ok []
    | QIITA_DELETED => Except.ok [PruneEffect.removeLocal g.filepath]
    | SYNC => Except.ok []
    | CONFLICT => Except.ok [PruneEffect.uploadRemote g.filepath]

/-- C6 counterexample: a private article with no id (never uploaded), in
state SYNC: the prune dispatch raises `ApplicationFileError` from
`QiitaSync.delete` before reaching `os.remove` — neither the remote item
nor the local file is deleted, contradicting the claim's "including
articles with no id". -/
theorem prune_private_without_id_deletes_nothing :
    qsync_do_prune SYNC
      { data := { title := strL "T", tags := [], id := none, priv := true }
        body := [], timestamp := 0, filepath := strL "a.md" } none =
      Except.error (strL "a.md has no id") := by
  rfl

/-- C6 amended: for every article whose private flag is true and whose id is
present, the prune dispatch deletes the remote item and then the local
file, regardless of the computed sync state (SYNC included) and of the
companion article; when the id is absent it raises instead and performs no
deletion at all. -/
theorem prune_private_deletes_remote_and_local (status : SyncStatus)
    (g : GitHubArticle) (lq : Option GitHubArticle)
    (hpriv : g.data.priv = true) :
    (∀ i, g.data.id = some i →
      qsync_do_prune status g lq =
        Except.ok [PruneEffect.deleteRemote i, PruneEffect.removeLocal g.filepath]) ∧
    (g.data.id = none →
      qsync_do_prune status g lq = Except.error (g.filepath ++ strL " has no id")) := by
  constructor
  · intro i hid
    unfold qsync_do_prune QiitaSync.delete
    rw [hpriv, hid]
    rfl
  · intro hid
    unfold qsync_do_prune QiitaSync.delete
    rw [hpriv, hid]
    rfl

/-- C6 witness: a private article with an id, in state SYNC: both the remote
item and the local file are deleted, in that order. -/
theorem prune_private_witness :
    qsync_do_prune SYNC
      { data := { title := strL "T", tags := [], id := some (strL "ID1"), priv := true }
        body := [], timestamp := 0, filepath := strL "a.md" } none =
      Except.ok [PruneEffect.deleteRemote (strL "ID1"),
                 PruneEffect.removeLocal (strL "a.md")] := by
  exact (prune_private_deletes_remote_and_local SYNC
    { data := { title := strL "T", tags := [], id := some (strL "ID1"), priv := true }
      body := [], timestamp := 0, filepath := strL "a.md" } none rfl).1
    (strL "ID1") rfl

/-!  GitHub remote URL parsing (`match_github_https_url`,
`match_github_ssh_url`, and the `QiitaSync.getInstance` guard). -/

/-- Match a literal regex fragment in which `.` is the regex any-character
(the source patterns leave the dots of `github.com` unescaped); returns the
remainder after the fragment. -/
def matchPat : List Char → List Char → Option (List Char)
  | [], s => some s
  | _ :: _, [] => none
  | p :: ps, c :: cs =>
    if p = '.' then (if c = '\n' then none else matchPat ps cs)
    else if c = p then matchPat ps cs else none

/-- Split at the last occurrence of `sep` (how the greedy `(.*)/` of both
URL regexes picks its slash). -/
def splitLastChar (sep : Char) (s : List Char) : Option (List Char × List Char) :=
  match splitFirst sep s.reverse with
  | some (a, b) => some (b.reverse, a.reverse)
  | none => none

/-- Split at the last occurrence of the pattern (how the greedy `(.*)\.git`
picks its `.git`): `s = u ++ pat ++ v` with `u` longest. -/
def lastOccSplit (pat : List Char) : List Char → Option (List Char × List Char)
  | [] => none
  | c :: rest =>
    match lastOccSplit pat rest with
    | some (u, v) => some (c :: u, v)
    | none =>
      if (c :: rest).take pat.length == pat then
        some ([], (c :: rest).drop pat.length)
      else none

/-- The greedy `(.*)/(.*)\.git` tail of GITHUB_SSH_URL_REGEX: the rightmost
slash whose suffix still contains `.git`, then the longest group 2 (cut at
the last `.git`). -/
def sshSplit : List Char → Option (List Char × List Char)
  | [] => none
  | c :: rest =>
    match sshSplit rest with
    | some (u, g2) => some (c :: u, g2)
    | none =>
      if c = '/' then
        match lastOccSplit (strL ".git") rest with
        | some (g2, _) => some ([], g2)
        | none => none
      else none

/-- The source's `match_github_https_url`: regex
`^https://github.com/(.*)/(.*)(?:\.git)?`.  Both `(.*)` are greedy and `.`
excludes the newline, so the match runs to the end of the first line, group
1 ends at the last slash, and the optional `(?:\.git)?` can only ever match
the empty string. -/
def match_github_https_url (text : List Char) : Option (List Char × List Char) :=
  match matchPat (strL "https://github.com/") text with
  | none => none
  | some rest => splitLastChar '/' (rest.takeWhile (· ≠ '\n'))

/-- The source's `match_github_ssh_url`: regex
`^git@github.com:(.*)/(.*)\.git` (the trailing `\.git` is required and is
excluded from group 2; the regex is not anchored at the end). -/
def match_github_ssh_url (text : List Char) : Option (List Char × List Char) :=
  match matchPat (strL "git@github.com:") text with
  | none => none
  | some rest => sshSplit (rest.takeWhile (· ≠ '\n'))

/-- The remote-URL part of the source's `QiitaSync.getInstance`:
`match_github_https_url(url) or match_github_ssh_url(url)`, raising
`ApplicationError` when neither shape matches, before any mutation. -/
def qsync_user_repo (url : List Char) :
    Except (List Char) (List Char × List Char) :=
  match match_github_https_url url with
  | some ur => Except.ok ur
  | none =>
    match match_github_ssh_url url with
    | some ur => Except.ok ur
    | none => Except.error (url ++ strL " is not GitHub")

/-- C8: what the code does at the failing input.  For an HTTPS remote URL
carrying the optional `.git` suffix, the greedy `(.*)` swallows the suffix
and the dead `(?:\.git)?` group matches the empty string, so the extracted
repository name keeps `.git` — the SSH shape does strip it, and a URL
matching neither shape is rejected with the configuration error. -/
theorem github_url_parsing_keeps_git_suffix_on_https :
    match_github_https_url (strL "https://github.com/ryokat3/qiita-sync.git") =
      some (strL "ryokat3", strL "qiita-sync.git") ∧
    qsync_user_repo (strL "https://github.com/ryokat3/qiita-sync.git") =
      Except.ok (strL "ryokat3", strL "qiita-sync.git") ∧
    match_github_ssh_url (strL "git@github.com:ryokat3/qiita-sync.git") =
      some (strL "ryokat3", strL "qiita-sync") ∧
    qsync_user_repo (strL "ssh://example.com/a/b") =
      Except.error (strL "ssh://example.com/a/b is not GitHub") := by
  exact ⟨by decide, by rfl, by decide, by rfl⟩

/-!  Markdown link and image rewriting (`markdown_replace_link`,
`markdown_replace_image`).  `re.sub` is rendered as a left-to-right scan of
the original text; at each position the anchored match of the pattern is
attempted, a match emits `group1 ++ conv(group2) ++ group3` and resumes
after the match, otherwise the character is copied. -/

/-- Character class `[^\]]` of the bracketed link text. -/
def notRBracket (c : Char) : Bool := !(c = ']')

/-- Character class `[^\ \)]` of the target token: anything but a space or a
closing parenthesis (tabs and newlines included). -/
def isTargetChar (c : Char) : Bool := !(c = ' ' || c = ')')

/-- Anchored match of the common core `\[[^\]]*\]\(([^\ \)]+)(.*?\))` of
MARKDOWN_LINK_REGEX and MARKDOWN_IMAGE_REGEX: the bracketed text (no `]`),
then `](`, then the greedy target of one-or-more characters that are
neither a space nor `)`, then the lazy rest up to and including the first
`)` (DOTALL: the dot includes newlines).  Returns
(text, target, group-3, remainder). -/
def linkCore : List Char → Option (List Char × List Char × List Char × List Char)
  | [] => none
  | c :: r1 =>
    if c = '[' then
      let txt := r1.takeWhile notRBracket
      match r1.drop txt.length with
      | d :: e :: r2 =>
        if d = ']' && e = '(' then
          let g2 := r2.takeWhile isTargetChar
          if g2.isEmpty then none
          else
            match splitFirst ')' (r2.drop g2.length) with
            | some (a, b) => some (txt, g2, a ++ [')'], b)
            | none => none
        else none
      | _ => none
    else none

/-- Anchored match of MARKDOWN_LINK_REGEX at a position whose previous
character is `prev`: the `(?<!\!)` lookbehind rejects a preceding `!`.
Returns (group 1, group 2, group 3, remainder). -/
def linkMatchAt (prev : Option Char) (s : List Char) :
    Option (List Char × List Char × List Char × List Char) :=
  if prev = some '!' then none
  else
    (linkCore s).map (fun r => ('[' :: r.1 ++ strL "](", r.2.1, r.2.2.1, r.2.2.2))

/-- Anchored match of MARKDOWN_IMAGE_REGEX (a leading `!` then the core). -/
def imageMatchAt : List Char → Option (List Char × List Char × List Char × List Char)
  | [] => none
  | c :: s1 =>
    if c = '!' then
      (linkCore s1).map
        (fun r => ('!' :: '[' :: r.1 ++ strL "](", r.2.1, r.2.2.1, r.2.2.2))
    else none

/-- Scanner of the source's `markdown_replace_link` (`re.sub` over
MARKDOWN_LINK_REGEX with replacement `group1 + conv(group2) + group3`).
The fuel argument only needs to dominate the text length. -/
def markdown_replace_link_aux (conv : List Char → List Char) :
    Nat → Option Char → List Char → List Char
  | _, _, [] => []
  | 0, _, s => s
  | fuel + 1, prev, c :: rest =>
    match linkMatchAt prev (c :: rest) with
    | some (g1, g2, g3, rest2) =>
      g1 ++ conv g2 ++ g3 ++ markdown_replace_link_aux conv fuel (some ')') rest2
    | none => c :: markdown_replace_link_aux conv fuel (some c) rest

/-- The source's `markdown_replace_link`. -/
def markdown_replace_link (conv : List Char → List Char) (text : List Char) :
    List Char :=
  markdown_replace_link_aux conv text.length none text

/-- Scanner of the source's `markdown_replace_image`. -/
def markdown_replace_image_aux (conv : List Char → List Char) :
    Nat → Option Char → List Char → List Char
  | _, _, [] => []
  | 0, _, s => s
  | fuel + 1, _prev, c :: rest =>
    match imageMatchAt (c :: rest) with
    | some (g1, g2, g3, rest2) =>
      g1 ++ conv g2 ++ g3 ++ markdown_replace_image_aux conv fuel (some ')') rest2
    | none => c :: markdown_replace_image_aux conv fuel (some c) rest

/-- The source's `markdown_replace_image`. -/
def markdown_replace_image (conv : List Char → List Char) (text : List Char) :
    List Char :=
  markdown_replace_image_aux conv text.length none text

/-- A take-while over a list whose prefix satisfies the predicate and whose
next element does not stops exactly at the boundary. -/
theorem takeWhile_append_cons {α : Type} (p : α → Bool) (xs : List α) (y : α)
    (ys : List α) (h : ∀ c ∈ xs, p c = true) (hy : p y = false) :
    (xs ++ y :: ys).takeWhile p = xs := by
  induction xs with
  | nil => simp [List.takeWhile_cons, hy]
  | cons a as ih =>
    have ha : p a = true := h a (by simp)
    simp [List.takeWhile_cons, ha]
    exact ih (fun c hc => h c (by simp [hc]))

/-- Splitting once at a separator that occurs first at the marked position. -/
theorem splitFirst_append (sep : Char) (xs ys : List Char)
    (h : ∀ c ∈ xs, ¬ c = sep) :
    splitFirst sep (xs ++ sep :: ys) = some (xs, ys) := by
  induction xs with
  | nil => simp [splitFirst]
  | cons a as ih =>
    have ha : ¬ a = sep := h a (by simp)
    have ihh := ih (fun c hc => h c (by simp [hc]))
    simp [splitFirst, ha, ihh]

/-- Anatomy of the anchored core match on a well-formed link body: the
bracketed text must avoid `]`, the target is a nonempty run free of spaces
and `)`, the title must avoid `)` and, unless empty, start with a space (so
that the greedy target stops exactly at it). -/
theorem linkCore_eq (txt target title : List Char)
    (htxt : ∀ c ∈ txt, ¬ c = ']')
    (htgt1 : target ≠ [])
    (htgt2 : ∀ c ∈ target, ¬ (c = ' ' ∨ c = ')'))
    (htitle1 : ∀ c ∈ title, ¬ c = ')')
    (htitle2 : title = [] ∨ ∃ t, title = ' ' :: t) :
    linkCore ('[' :: (txt ++ ']' :: '(' :: (target ++ (title ++ [')'])))) =
      some (txt, target, title ++ [')'], []) := by
  have htw1 : (txt ++ ']' :: '(' :: (target ++ (title ++ [')']))).takeWhile
      notRBracket = txt := by
    apply takeWhile_append_cons
    · intro c hc; simp [notRBracket, htxt c hc]
    · simp [notRBracket]
  have hall : ∀ c ∈ target, isTargetChar c = true := by
    intro c hc
    have := htgt2 c hc
    simp [not_or] at this
    simp [isTargetChar, this.1, this.2]
  obtain ⟨y, ys, hys, hyf⟩ :
      ∃ y ys, title ++ [')'] = y :: ys ∧ isTargetChar y = false := by
    rcases htitle2 with ht | ⟨t, ht⟩ <;> subst ht
    · exact ⟨')', [], rfl, by decide⟩
    · exact ⟨' ', t ++ [')'], rfl, by decide⟩
  have htw2 : (target ++ (title ++ [')'])).takeWhile isTargetChar = target := by
    rw [hys]
    exact takeWhile_append_cons isTargetChar target y ys hall hyf
  have hsp : splitFirst ')' (title ++ [')']) = some (title, []) :=
    splitFirst_append ')' title [] htitle1
  have hne : target.isEmpty = false := by
    cases target with
    | nil => exact absurd rfl htgt1
    | cons a l => rfl
  simp only [linkCore, if_true]
  simp only [htw1, List.drop_left]
  rw [if_pos (by decide)]
  simp only [htw2, List.drop_left, hne, hsp]
  simp

/-- One scanner step at a match that consumes the whole remaining text. -/
theorem replace_link_aux_full_match (conv : List Char → List Char) (fuel : Nat)
    (prev : Option Char) (c : Char) (rest g1 g2 g3 : List Char)
    (hm : linkMatchAt prev (c :: rest) = some (g1, g2, g3, [])) :
    markdown_replace_link_aux conv (fuel + 1) prev (c :: rest) =
      g1 ++ conv g2 ++ g3 := by
  unfold markdown_replace_link_aux
  rw [hm]
  simp [markdown_replace_link_aux]

/-- One image-scanner step at a match that consumes the whole text. -/
theorem replace_image_aux_full_match (conv : List Char → List Char) (fuel : Nat)
    (prev : Option Char) (c : Char) (rest g1 g2 g3 : List Char)
    (hm : imageMatchAt (c :: rest) = some (g1, g2, g3, [])) :
    markdown_replace_image_aux conv (fuel + 1) prev (c :: rest) =
      g1 ++ conv g2 ++ g3 := by
  unfold markdown_replace_image_aux
  rw [hm]
  simp [markdown_replace_image_aux]

/-- C5 counterexample: in `[x](a<TAB>b)` the claim says the target ends at
the first whitespace character, so the transform would be applied to `a`
and `<TAB>b` kept verbatim, producing `[x](aa<TAB>b)` for the doubling
transform; the code's target class `[^\ \)]+` excludes only the space
character, so the transform is applied to `a<TAB>b` instead. -/
theorem link_target_tab_counterexample :
    markdown_replace_link (fun s => s ++ s) (strL "[x](a\tb)") =
      strL "[x](a\tba\tb)" ∧
    markdown_replace_link (fun s => s ++ s) (strL "[x](a\tb)") ≠
      strL "[x](aa\tb)" := by
  exact ⟨by decide, by decide⟩

/-- C5 amended: for a Markdown link `[txt](TARGET title)` and an image
`![txt](TARGET title)`, the rewriting functions apply the caller-supplied
transform to exactly the target token, which ends at the first space
character (U+0020) or the closing `)`, whichever comes first — any other
whitespace, tabs and newlines included, is part of the target; the link
text and the title annotation between that boundary and the closing `)`
are preserved verbatim. -/
theorem link_image_transform_exact_target (conv : List Char → List Char)
    (txt target title : List Char)
    (htxt : ∀ c ∈ txt, ¬ c = ']')
    (htgt1 : target ≠ [])
    (htgt2 : ∀ c ∈ target, ¬ (c = ' ' ∨ c = ')'))
    (htitle1 : ∀ c ∈ title, ¬ c = ')')
    (htitle2 : title = [] ∨ ∃ t, title = ' ' :: t) :
    markdown_replace_link conv
        ('[' :: (txt ++ ']' :: '(' :: (target ++ (title ++ [')'])))) =
      '[' :: (txt ++ ']' :: '(' :: (conv target ++ (title ++ [')']))) ∧
    markdown_replace_image conv
        ('!' :: '[' :: (txt ++ ']' :: '(' :: (target ++ (title ++ [')'])))) =
      '!' :: '[' :: (txt ++ ']' :: '(' :: (conv target ++ (title ++ [')']))) := by
  have hcore := linkCore_eq txt target title htxt htgt1 htgt2 htitle1 htitle2
  constructor
  · have hm : linkMatchAt none
        ('[' :: (txt ++ ']' :: '(' :: (target ++ (title ++ [')'])))) =
        some (('[' :: txt) ++ strL "](", target, title ++ [')'], []) := by
      unfold linkMatchAt
      rw [if_neg (by simp), hcore]
      simp [strL]
    unfold markdown_replace_link
    rw [List.length_cons,
      replace_link_aux_full_match conv _ none _ _ _ _ _ hm]
    simp [strL]
  · have hm : imageMatchAt
        ('!' :: '[' :: (txt ++ ']' :: '(' :: (target ++ (title ++ [')'])))) =
        some (('!' :: '[' :: txt) ++ strL "](", target, title ++ [')'], []) := by
      simp only [imageMatchAt, if_true]
      rw [hcore]
      simp [strL]
    unfold markdown_replace_image
    rw [List.length_cons, List.length_cons,
      replace_image_aux_full_match conv _ none _ _ _ _ _ hm]
    simp [strL]

/-- C5 witness: the link `[x](u and y)` and the image `![x](u and y)` with
the doubling transform: the target `u` is doubled, text and title kept. -/
theorem link_image_transform_witness :
    markdown_replace_link (fun s => s ++ s) (strL "[x](u and y)") =
      strL "[x](uu and y)" ∧
    markdown_replace_image (fun s => s ++ s) (strL "![x](u and y)") =
      strL "![x](uu and y)" := by
  have h := link_image_transform_exact_target (fun s => s ++ s)
    (strL "x") (strL "u") (strL " and y")
    (by decide) (by decide) (by decide) (by decide)
    (Or.inr ⟨strL "and y", rfl⟩)
  exact ⟨h.1, h.2⟩

/-!  Round-trip of the on-disk format (`toText` / `fromText`). -/

/-- No whitespace character followed by the literal `-->` occurs inside the
string: the condition under which the lazy group 1 of HEADER_REGEX runs up
to the intended closing arrow of the written header. -/
def wsArrowFree : List Char → Bool
  | [] => true
  | c :: rest =>
    match rest with
    | x :: y :: z :: _ =>
      !(pyIsSpace c && x = '-' && y = '-' && z = '>') && wsArrowFree rest
    | _ => true

/-- C1 counterexample: an article whose body carries a trailing space inside
a line (`a \nb`).  Writing it and re-reading runs the body through
`markdown_normalize`, which deletes the trailing space, and the stripped
bodies `a \nb` and `a\nb` differ, so the round-tripped article is not equal
to the original under Article equality. -/
theorem roundtrip_counterexample :
    articleEq
      (GitHubArticle.fromText
        (GitHubArticle.toText
          { data := { title := strL "T", tags := QiitaTags.fromString (strL "tag"),
                      id := none, priv := false }
            body := strL "a \nb", timestamp := 0, filepath := strL "a.md" })
        0 (strL "a.md"))
      { data := { title := strL "T", tags := QiitaTags.fromString (strL "tag"),
                  id := none, priv := false }
        body := strL "a \nb", timestamp := 0, filepath := strL "a.md" } = false := by
  decide

/-- Dropping while a predicate holds walks through a prefix on which it
holds everywhere. -/
theorem dropWhile_append_all {α : Type} (p : α → Bool) (xs ys : List α)
    (h : ∀ c ∈ xs, p c = true) :
    (xs ++ ys).dropWhile p = ys.dropWhile p := by
  induction xs with
  | nil => rfl
  | cons a as ih =>
    have ha : p a = true := h a (by simp)
    simp [List.dropWhile_cons, ha]
    exact ih (fun c hc => h c (by simp [hc]))

/-- Dropping stops at the first element violating the predicate. -/
theorem dropWhile_append_cons {α : Type} (p : α → Bool) (xs : List α) (y : α)
    (ys : List α) (h : ∀ c ∈ xs, p c = true) (hy : p y = false) :
    (xs ++ y :: ys).dropWhile p = y :: ys := by
  rw [dropWhile_append_all p xs (y :: ys) h]
  simp [List.dropWhile_cons, hy]

/-- A list on which the predicate never holds is left whole by dropWhile. -/
theorem dropWhile_of_all_neg {α : Type} (p : α → Bool) (xs : List α)
    (h : ∀ c ∈ xs, p c = false) : xs.dropWhile p = xs := by
  cases xs with
  | nil => rfl
  | cons a as => simp [List.dropWhile_cons, h a (by simp)]

/-- A word-class character is never a whitespace character. -/
theorem word_not_space (c : Char) (h : isWordChar c = true) :
    pyIsSpace c = false := by
  by_contra hns
  simp only [Bool.not_eq_false] at hns
  have hmem : c ∈ pySpaceChars := by
    simpa [pyIsSpace] using hns
  simp only [pySpaceChars, List.mem_cons, List.not_mem_nil, or_false] at hmem
  rcases hmem with h1 | h1 | h1 | h1 | h1 | h1 | h1 | h1 | h1 | h1 | h1 | h1 |
    h1 | h1 | h1 | h1 | h1 | h1 | h1 | h1 | h1 | h1 | h1 | h1 | h1 | h1 | h1 |
    h1 | h1 <;> subst h1 <;> exact absurd h (by decide)

/-- A word-class character is never a colon. -/
theorem word_not_colon (c : Char) (h : isWordChar c = true) : ¬ c = ':' := by
  intro hc; subst hc; simp [isWordChar] at h

/-- Strings of non-whitespace characters are strip-fixed. -/
theorem pyStrip_of_no_space (xs : List Char)
    (h : ∀ c ∈ xs, pyIsSpace c = false) : pyStrip xs = xs := by
  unfold pyStrip pyLstrip pyRstrip
  rw [dropWhile_of_all_neg pyIsSpace xs h]
  rw [dropWhile_of_all_neg pyIsSpace xs.reverse (fun c hc => h c (by simpa using hc))]
  simp

/-- Strings free of every `str.splitlines` line-boundary character. -/
abbrev noNL (s : List Char) : Prop := ∀ c ∈ s, pyIsLineBreak c = false

/-- A terminator-free string is one whole line, whatever has accumulated. -/
theorem splitlinesAux_noNL (s : List Char) (h : noNL s) :
    ∀ acc, splitlinesAux s acc = [acc.reverse ++ s] := by
  induction s with
  | nil => intro acc; simp [splitlinesAux]
  | cons c rest ih =>
    intro acc
    have hc := h c (by simp)
    have hc1 : ¬ c = '\r' := by
      intro hx; subst hx; exact absurd hc (by decide)
    have hc2 : ¬ pyIsLineBreak c = true := by simp [hc]
    rw [splitlinesAux.eq_def]
    dsimp only
    rw [if_neg hc1, if_neg hc2, ih (fun d hd => h d (by simp [hd])) (c :: acc)]
    simp

/-- A line then LF then a nonempty remainder: the line is emitted and the
scan restarts on the remainder. -/
theorem splitlinesAux_line (x R : List Char) (hx : noNL x) (hR : R ≠ []) :
    ∀ acc, splitlinesAux (x ++ '\n' :: R) acc =
      (acc.reverse ++ x) :: splitlinesAux R [] := by
  induction x with
  | nil =>
    intro acc
    have hRe : R.isEmpty = false := by
      cases R with
      | nil => exact absurd rfl hR
      | cons a l => rfl
    rw [List.nil_append, splitlinesAux.eq_def]
    dsimp only
    rw [if_neg (show ¬('\n' : Char) = '\r' by decide),
      if_pos (show pyIsLineBreak '\n' = true by decide), hRe]
    simp
  | cons c rest ih =>
    intro acc
    have hc := hx c (by simp)
    have hc1 : ¬ c = '\r' := by
      intro hxx; subst hxx; exact absurd hc (by decide)
    have hc2 : ¬ pyIsLineBreak c = true := by simp [hc]
    rw [List.cons_append, splitlinesAux.eq_def]
    dsimp only
    rw [if_neg hc1, if_neg hc2, ih (fun d hd => hx d (by simp [hd])) (c :: acc)]
    simp

/-- Whether the last line of the block is nonempty (so that the LF-joined
block does not end in a terminator, which `splitlines` would swallow). -/
def lastLineFull : List (List Char) → Prop
  | [] => False
  | [x] => x ≠ []
  | _ :: xs => lastLineFull xs

/-- An LF-join of lines ending in a nonempty line is itself nonempty. -/
theorem joinSep_ne_nil (ls : List (List Char)) (h : lastLineFull ls) :
    joinSep '\n' ls ≠ [] := by
  match ls, h with
  | [x], h => simpa [joinSep] using h
  | x :: y :: xs, h => simp [joinSep]

/-- Splitting the LF-join of terminator-free lines recovers the lines. -/
theorem pySplitlines_joinSep (ls : List (List Char))
    (hnl : ∀ l ∈ ls, noNL l) (h : lastLineFull ls) :
    pySplitlines (joinSep '\n' ls) = ls := by
  induction ls with
  | nil => exact absurd h (by simp [lastLineFull])
  | cons x xs ih =>
    cases xs with
    | nil =>
      have hx : x ≠ [] := h
      have hxe : x.isEmpty = false := by
        cases x with
        | nil => exact absurd rfl hx
        | cons a l => rfl
      simp only [joinSep, pySplitlines, hxe, Bool.false_eq_true, if_false]
      rw [splitlinesAux_noNL x (hnl x (by simp)) []]
      simp
    | cons y ys =>
      have hjoin : joinSep '\n' (x :: y :: ys) = x ++ '\n' :: joinSep '\n' (y :: ys) := rfl
      have hrest : joinSep '\n' (y :: ys) ≠ [] := joinSep_ne_nil (y :: ys) h
      rw [hjoin]
      unfold pySplitlines
      rw [if_neg (by simp)]
      rw [splitlinesAux_line x (joinSep '\n' (y :: ys)) (hnl x (by simp)) hrest []]
      have ihr := ih (fun l hl => hnl l (by simp [hl])) h
      unfold pySplitlines at ihr
      rw [if_neg (by simpa using hrest)] at ihr
      rw [ihr]
      simp

/-- How `parseDataLine` treats a written `key: value` line: the key is a
nonempty word, the padding after the colon is spaces; the line is kept
exactly when the value holds a non-whitespace character, yielding the key
and the stripped value. -/
theorem parseDataLine_keyval (key pad v : List Char)
    (hkey1 : key ≠ []) (hkey2 : ∀ c ∈ key, isWordChar c = true)
    (hpad : ∀ c ∈ pad, c = ' ') :
    parseDataLine (key ++ ':' :: (pad ++ v)) =
      if v.any (fun c => !pyIsSpace c) then some (key, pyStrip (pad ++ v))
      else none := by
  obtain ⟨k0, key', hk⟩ : ∃ k0 key', key = k0 :: key' := by
    cases key with
    | nil => exact absurd rfl hkey1
    | cons a l => exact ⟨a, l, rfl⟩
  have hword : ∀ c ∈ key, pyIsSpace c = false :=
    fun c hc => word_not_space c (hkey2 c hc)
  have hd1 : (key ++ ':' :: (pad ++ v)).dropWhile pyIsSpace =
      key ++ ':' :: (pad ++ v) := by
    subst hk
    simp only [List.cons_append]
    simp [List.dropWhile_cons, hword k0 (by simp)]
  have ht1 : (key ++ ':' :: (pad ++ v)).takeWhile isWordChar = key :=
    takeWhile_append_cons isWordChar key ':' (pad ++ v) hkey2 (by decide)
  have hd2 : (key ++ ':' :: (pad ++ v)).dropWhile isWordChar = ':' :: (pad ++ v) :=
    dropWhile_append_cons isWordChar key ':' (pad ++ v) hkey2 (by decide)
  have hd3 : (':' :: (pad ++ v)).dropWhile pyIsSpace = ':' :: (pad ++ v) := by
    rw [List.dropWhile_cons, if_neg (by decide)]
  have hkeyne : key.isEmpty = false := by
    subst hk; rfl
  have hsf : splitFirst ':' (key ++ ':' :: (pad ++ v)) = some (key, pad ++ v) :=
    splitFirst_append ':' key (pad ++ v) (fun c hc => word_not_colon c (hkey2 c hc))
  have hany : (pad ++ v).any (fun c => !pyIsSpace c) = v.any (fun c => !pyIsSpace c) := by
    rw [List.any_append]
    have : pad.any (fun c => !pyIsSpace c) = false := by
      simp only [List.any_eq_false]
      intro c hc
      rw [hpad c hc]
      decide
    rw [this]
    simp
  have hkstrip : pyStrip key = key := pyStrip_of_no_space key hword
  unfold parseDataLine
  dsimp only
  rw [hd1, ht1, hd2, hd3]
  rw [if_neg (by simp [hkeyne])]
  dsimp only
  rw [if_pos rfl, hany, hsf]
  by_cases hv : v.any (fun c => !pyIsSpace c) = true
  · rw [if_pos hv, if_pos hv]
    dsimp only
    rw [hkstrip]
  · rw [if_neg hv, if_neg hv]

/-- Short tails are trivially free of an in-string header terminator. -/
theorem wsArrowFree_short (D : List Char) (h : D.length ≤ 3) :
    wsArrowFree D = true := by
  match D, h with
  | [], _ => rfl
  | [a], _ => rfl
  | [a, b], _ => rfl
  | [a, b, c], _ => rfl

/-- The lazy group-1 search of HEADER_REGEX runs exactly to the written
closing arrow when no whitespace-then-`-->` occurs inside the header
content. -/
theorem findHeaderEnd_eq (D R : List Char) (hD : wsArrowFree D = true) :
    findHeaderEnd (D ++ '\n' :: '-' :: '-' :: '>' :: R) = some (D, R) := by
  induction D with
  | nil =>
    rw [List.nil_append, findHeaderEnd.eq_def]
    dsimp only
    rw [if_pos (by decide)]
  | cons c D' ih =>
    rw [List.cons_append, findHeaderEnd.eq_def]
    cases D' with
    | nil =>
      dsimp only [List.nil_append]
      rw [if_neg (by simp)]
      have ihe := ih rfl
      rw [List.nil_append] at ihe
      rw [ihe]
    | cons a D2 =>
      cases D2 with
      | nil =>
        dsimp only [List.cons_append, List.nil_append]
        rw [if_neg (by simp)]
        have ihe := ih (wsArrowFree_short [a] (by simp))
        simp only [List.cons_append, List.nil_append] at ihe
        rw [ihe]
      | cons b D3 =>
        cases D3 with
        | nil =>
          dsimp only [List.cons_append, List.nil_append]
          rw [if_neg (by simp)]
          have ihe := ih (wsArrowFree_short [a, b] (by simp))
          simp only [List.cons_append, List.nil_append] at ihe
          rw [ihe]
        | cons d D4 =>
          have hw := hD
          rw [wsArrowFree.eq_def] at hw
          dsimp only at hw
          simp only [Bool.and_eq_true, Bool.not_eq_true'] at hw
          dsimp only [List.cons_append]
          rw [if_neg (by simp [hw.1])]
          have ihe := ih hw.2
          simp only [List.cons_append] at ihe
          rw [ihe]

/-- The splitlines scan never yields an empty line list. -/
theorem splitlinesAux_ne_nil (s : List Char) :
    ∀ acc, splitlinesAux s acc ≠ [] := by
  induction s with
  | nil => intro acc; simp [splitlinesAux]
  | cons c rest ih =>
    intro acc
    rw [splitlinesAux.eq_def]
    dsimp only
    by_cases h1 : c = '\r'
    · rw [if_pos h1]
      cases rest with
      | nil => simp
      | cons d rest2 =>
        dsimp only
        by_cases h2 : d = '\n'
        · rw [if_pos h2]; split <;> simp
        · rw [if_neg h2]; simp
    · rw [if_neg h1]
      by_cases h2 : pyIsLineBreak c = true
      · rw [if_pos h2]; split <;> simp
      · rw [if_neg h2]; exact ih (c :: acc)

/-- Stripping is blind to a leading newline. -/
theorem pyStrip_cons_nl (x : List Char) : pyStrip ('\n' :: x) = pyStrip x := by
  unfold pyStrip pyLstrip
  rw [List.dropWhile_cons, if_pos (by decide)]

/-- Normalizing with a newline prepended only prepends the newline (for a
nonempty remainder). -/
theorem normalize_cons_nl (B : List Char) (hB : B ≠ []) :
    markdown_normalize ('\n' :: B) = '\n' :: markdown_normalize B := by
  have hBe : B.isEmpty = false := by
    cases B with
    | nil => exact absurd rfl hB
    | cons a l => rfl
  obtain ⟨l0, ls, hds⟩ : ∃ l0 ls, splitlinesAux B [] = l0 :: ls := by
    rcases h : splitlinesAux B [] with _ | ⟨l0, ls⟩
    · exact absurd h (splitlinesAux_ne_nil B [])
    · exact ⟨l0, ls, rfl⟩
  unfold markdown_normalize pySplitlines
  rw [if_neg (by simp), if_neg (by simp [hBe])]
  rw [splitlinesAux.eq_def]
  dsimp only
  rw [if_neg (by decide), if_pos (show pyIsLineBreak '\n' = true by decide), hBe]
  rw [if_neg (by simp)]
  rw [hds]
  simp only [List.map_cons, List.reverse_nil]
  rw [show joinSep '\n' (pyRstrip [] :: pyRstrip l0 :: ls.map pyRstrip) =
    pyRstrip [] ++ '\n' :: joinSep '\n' (pyRstrip l0 :: ls.map pyRstrip) from rfl]
  simp [pyRstrip]

/-- Stripped bodies agree after re-reading: the reparsed body is the
normalization of the original body with the separating newline prepended. -/
theorem strip_normalize_cons_nl (B : List Char) :
    pyStrip (markdown_normalize ('\n' :: B)) =
      pyStrip (markdown_normalize B) := by
  cases B with
  | nil => decide
  | cons c B2 =>
    rw [normalize_cons_nl (c :: B2) (by simp), pyStrip_cons_nl]

/-- HEADER_REGEX on the exact text `toText` writes: the header opener, one
newline, the metadata block, then the closing arrow line and the body. -/
theorem headerMatch_written (D B : List Char) (hD : wsArrowFree D = true) :
    headerMatch ('<' :: '!' :: '-' :: '-' :: '\n' ::
        (D ++ '\n' :: '-' :: '-' :: '>' :: '\n' :: B)) = some (D, '\n' :: B) := by
  unfold headerMatch
  rw [List.dropWhile_cons, if_neg (by decide)]
  dsimp only
  rw [if_pos (by decide)]
  exact findHeaderEnd_eq D ('\n' :: B) hD

/-- The serialized article in head-normal form. -/
theorem toText_shape (a : GitHubArticle) :
    a.toText = '<' :: '!' :: '-' :: '-' :: '\n' ::
      (dataToString a.data ++ '\n' :: '-' :: '-' :: '>' :: '\n' :: a.body) := by
  have h1 : strL "<!--" = ['<', '!', '-', '-'] := rfl
  have h2 : strL "-->" = ['-', '-', '>'] := rfl
  simp [GitHubArticle.toText, h1, h2]

/-- Terminator-freeness is preserved by concatenation. -/
theorem noNL_append (x y : List Char) (hx : noNL x) (hy : noNL y) :
    noNL (x ++ y) := by
  intro c hc
  rcases List.mem_append.mp hc with h | h
  · exact hx c h
  · exact hy c h

/-- Looking a key up skips an entry with a different key. -/
theorem lookupLast_cons_ne (k k1 : List Char) (v1 : List Char)
    (es : List (List Char × List Char)) (h : (k1 == k) = false) :
    lookupLast k ((k1, v1) :: es) = lookupLast k es := by
  simp [lookupLast, List.filter_cons, h]

/-- Looking a key up finds the single entry carrying it, when no later
entry repeats the key. -/
theorem lookupLast_cons_eq (k v1 : List Char)
    (es : List (List Char × List Char))
    (h : es.filter (fun e => e.1 == k) = []) :
    lookupLast k ((k, v1) :: es) = some v1 := by
  have hself : (k == k) = true := beq_self_eq_true k
  simp [lookupLast, List.filter_cons, hself, h]

/-- Parsing the written metadata block recovers the title verbatim and the
tags as re-parsed from their canonical string, whatever the defaults and
whatever the id and private flag. -/
theorem fromString_of_written (d : QiitaData) (dT dTags : List Char)
    (hti1 : noNL d.title) (hti2 : pyLstrip d.title = d.title)
    (hti3 : pyRstrip d.title = d.title)
    (hti4 : d.title.any (fun c => !pyIsSpace c) = true)
    (htg1 : noNL (tagsToString d.tags))
    (htg2 : pyLstrip (tagsToString d.tags) = tagsToString d.tags)
    (htg3 : pyRstrip (tagsToString d.tags) = tagsToString d.tags)
    (htg4 : (tagsToString d.tags).any (fun c => !pyIsSpace c) = true)
    (hid : ∀ i, d.id = some i → noNL i) :
    (QiitaData.fromString (dataToString d) dT dTags).title = d.title ∧
    (QiitaData.fromString (dataToString d) dT dTags).tags =
      QiitaTags.fromString (tagsToString d.tags) := by
  have hstrip1 : pyStrip (strL "   " ++ d.title) = d.title := by
    unfold pyStrip pyLstrip
    rw [dropWhile_append_all pyIsSpace (strL "   ") d.title (by decide)]
    rw [show List.dropWhile pyIsSpace d.title = d.title from hti2]
    exact hti3
  have hstrip2 : pyStrip (strL "    " ++ tagsToString d.tags) = tagsToString d.tags := by
    unfold pyStrip pyLstrip
    rw [dropWhile_append_all pyIsSpace (strL "    ") (tagsToString d.tags) (by decide)]
    rw [show List.dropWhile pyIsSpace (tagsToString d.tags) = tagsToString d.tags from htg2]
    exact htg3
  have hp1 : parseDataLine (strL "title:   " ++ d.title) =
      some (strL "title", d.title) := by
    have h := parseDataLine_keyval (strL "title") (strL "   ") d.title
      (by decide) (by decide) (by decide)
    rw [if_pos hti4, hstrip1] at h
    exact h
  have hp2 : parseDataLine (strL "tags:    " ++ tagsToString d.tags) =
      some (strL "tags", tagsToString d.tags) := by
    have h := parseDataLine_keyval (strL "tags") (strL "    ") (tagsToString d.tags)
      (by decide) (by decide) (by decide)
    rw [if_pos htg4, hstrip2] at h
    exact h
  obtain ⟨pv, hp4⟩ : ∃ pv,
      parseDataLine (strL "private: " ++
        (if d.priv then strL "true" else strL "false")) =
      some (strL "private", pv) := by
    cases hp : d.priv
    · exact ⟨strL "false", by rw [if_neg (by simp)]; decide⟩
    · exact ⟨strL "true", by rw [if_pos rfl]; decide⟩
  have hnl4 : noNL (strL "private: " ++
      (if d.priv then strL "true" else strL "false")) := by
    cases hp : d.priv
    · rw [if_neg (by simp)]; decide
    · rw [if_pos rfl]; decide
  have hlast : (strL "private: " ++
      (if d.priv then strL "true" else strL "false")) ≠ [] := by
    simp [strL]
  cases hidc : d.id with
  | none =>
    have hlines : pySplitlines (dataToString d) =
        [strL "title:   " ++ d.title, strL "tags:    " ++ tagsToString d.tags,
         strL "private: " ++ (if d.priv then strL "true" else strL "false")] := by
      have hshape : dataToString d = joinSep '\n'
          [strL "title:   " ++ d.title, strL "tags:    " ++ tagsToString d.tags,
           strL "private: " ++ (if d.priv then strL "true" else strL "false")] := by
        unfold dataToString
        rw [hidc]
        simp
      rw [hshape]
      apply pySplitlines_joinSep
      · intro l hl
        simp only [List.mem_cons, List.not_mem_nil, or_false] at hl
        rcases hl with h | h | h <;> subst h
        · exact noNL_append _ _ (by decide) hti1
        · exact noNL_append _ _ (by decide) htg1
        · exact hnl4
      · exact hlast
    have hentries : (pySplitlines (dataToString d)).filterMap parseDataLine =
        [(strL "title", d.title), (strL "tags", tagsToString d.tags),
         (strL "private", pv)] := by
      rw [hlines]
      rw [List.filterMap_cons_some hp1, List.filterMap_cons_some hp2,
        List.filterMap_cons_some hp4]
      rfl
    unfold QiitaData.fromString
    dsimp only
    rw [hentries]
    constructor
    · rw [lookupLast_cons_eq _ _ _ (by simp [List.filter_cons, (by decide : (strL "tags" == strL "title") = false), (by decide : (strL "private" == strL "title") = false)])]
      rfl
    · rw [lookupLast_cons_ne _ _ _ _ (by decide),
        lookupLast_cons_eq _ _ _ (by simp [List.filter_cons, (by decide : (strL "private" == strL "tags") = false)])]
      rfl
  | some i =>
    have hpid := parseDataLine_keyval (strL "id") (strL "      ") i
      (by decide) (by decide) (by decide)
    have hlines : pySplitlines (dataToString d) =
        [strL "title:   " ++ d.title, strL "tags:    " ++ tagsToString d.tags,
         strL "id:      " ++ i,
         strL "private: " ++ (if d.priv then strL "true" else strL "false")] := by
      have hshape : dataToString d = joinSep '\n'
          [strL "title:   " ++ d.title, strL "tags:    " ++ tagsToString d.tags,
           strL "id:      " ++ i,
           strL "private: " ++ (if d.priv then strL "true" else strL "false")] := by
        unfold dataToString
        rw [hidc]
        simp
      rw [hshape]
      apply pySplitlines_joinSep
      · intro l hl
        simp only [List.mem_cons, List.not_mem_nil, or_false] at hl
        rcases hl with h | h | h | h <;> subst h
        · exact noNL_append _ _ (by decide) hti1
        · exact noNL_append _ _ (by decide) htg1
        · exact noNL_append _ _ (by decide) (hid i hidc)
        · exact hnl4
      · exact hlast
    by_cases hiv : i.any (fun c => !pyIsSpace c) = true
    · rw [if_pos hiv] at hpid
      have hpid2 : parseDataLine (strL "id:      " ++ i) =
          some (strL "id", pyStrip (strL "      " ++ i)) := hpid
      have hentries : (pySplitlines (dataToString d)).filterMap parseDataLine =
          [(strL "title", d.title), (strL "tags", tagsToString d.tags),
           (strL "id", pyStrip (strL "      " ++ i)), (strL "private", pv)] := by
        rw [hlines]
        rw [List.filterMap_cons_some hp1, List.filterMap_cons_some hp2,
          List.filterMap_cons_some hpid2, List.filterMap_cons_some hp4]
        rfl
      unfold QiitaData.fromString
      dsimp only
      rw [hentries]
      constructor
      · rw [lookupLast_cons_eq _ _ _ (by simp [List.filter_cons, (by decide : (strL "tags" == strL "title") = false), (by decide : (strL "id" == strL "title") = false), (by decide : (strL "private" == strL "title") = false)])]
        rfl
      · rw [lookupLast_cons_ne _ _ _ _ (by decide),
          lookupLast_cons_eq _ _ _ (by simp [List.filter_cons, (by decide : (strL "id" == strL "tags") = false), (by decide : (strL "private" == strL "tags") = false)])]
        rfl
    · rw [if_neg hiv] at hpid
      have hpid2 : parseDataLine (strL "id:      " ++ i) = none := hpid
      have hentries : (pySplitlines (dataToString d)).filterMap parseDataLine =
          [(strL "title", d.title), (strL "tags", tagsToString d.tags),
           (strL "private", pv)] := by
        rw [hlines]
        rw [List.filterMap_cons_some hp1, List.filterMap_cons_some hp2,
          List.filterMap_cons_none hpid2, List.filterMap_cons_some hp4]
        rfl
      unfold QiitaData.fromString
      dsimp only
      rw [hentries]
      constructor
      · rw [lookupLast_cons_eq _ _ _ (by simp [List.filter_cons, (by decide : (strL "tags" == strL "title") = false), (by decide : (strL "private" == strL "title") = false)])]
        rfl
      · rw [lookupLast_cons_ne _ _ _ _ (by decide),
          lookupLast_cons_eq _ _ _ (by simp [List.filter_cons, (by decide : (strL "private" == strL "tags") = false)])]
        rfl

/-- C1 amended: writing an article and re-parsing the file yields an article
equal to the original under Article equality — same title, same tags (names
case-insensitive, versions exact), bodies equal after stripping — for every
article whose fields are in the form the program itself produces: a
single-line, strip-fixed title with some visible character; tags whose
canonical string is single-line, strip-fixed, visible, and re-parses to an
equal tag set; a single-line id when present; no whitespace-then-`-->`
inside the rendered metadata block; and a body fixed by
`markdown_normalize` (no trailing whitespace on any line, LF endings, no
trailing newline).  Timestamp, path, id and private differences are
ignored by this equality. -/
theorem roundtrip_canonical (a : GitHubArticle) (ts : Int) (fp : List Char)
    (hti1 : noNL a.data.title) (hti2 : pyLstrip a.data.title = a.data.title)
    (hti3 : pyRstrip a.data.title = a.data.title)
    (hti4 : a.data.title.any (fun c => !pyIsSpace c) = true)
    (htg1 : noNL (tagsToString a.data.tags))
    (htg2 : pyLstrip (tagsToString a.data.tags) = tagsToString a.data.tags)
    (htg3 : pyRstrip (tagsToString a.data.tags) = tagsToString a.data.tags)
    (htg4 : (tagsToString a.data.tags).any (fun c => !pyIsSpace c) = true)
    (htg5 : tagsEq (QiitaTags.fromString (tagsToString a.data.tags)) a.data.tags = true)
    (hid : ∀ i, a.data.id = some i → noNL i)
    (harrow : wsArrowFree (dataToString a.data) = true)
    (hbody : markdown_normalize a.body = a.body) :
    articleEq (GitHubArticle.fromText a.toText ts fp) a = true := by
  have hm : headerMatch a.toText = some (dataToString a.data, '\n' :: a.body) := by
    rw [toText_shape]
    exact headerMatch_written _ _ harrow
  unfold GitHubArticle.fromText
  rw [hm]
  dsimp only
  have hfs := fromString_of_written a.data
    (qiita_get_temporary_title ('\n' :: a.body))
    (qiita_get_temporary_tags ('\n' :: a.body))
    hti1 hti2 hti3 hti4 htg1 htg2 htg3 htg4 hid
  unfold articleEq dataEq
  dsimp only
  rw [hfs.1, hfs.2, strip_normalize_cons_nl, hbody]
  simp [htg5]

/-- C1 witness: a concrete article with a title, versioned tags, an id, the
private flag set and a two-line body round-trips to an equal article. -/
theorem roundtrip_canonical_witness :
    articleEq
      (GitHubArticle.fromText
        (GitHubArticle.toText
          { data := { title := strL "My Title", tags := QiitaTags.fromString (strL "python,Abc=2|1"),
                      id := some (strL "1234567890ABCDEFG"), priv := true }
            body := strL "hello\n\nworld", timestamp := 3, filepath := strL "m.md" })
        7 (strL "w.md"))
      { data := { title := strL "My Title", tags := QiitaTags.fromString (strL "python,Abc=2|1"),
                  id := some (strL "1234567890ABCDEFG"), priv := true }
        body := strL "hello\n\nworld", timestamp := 3, filepath := strL "m.md" } = true := by
  exact roundtrip_canonical
    { data := { title := strL "My Title", tags := QiitaTags.fromString (strL "python,Abc=2|1"),
                id := some (strL "1234567890ABCDEFG"), priv := true }
      body := strL "hello\n\nworld", timestamp := 3, filepath := strL "m.md" }
    7 (strL "w.md")
    (by decide) (by decide) (by decide) (by decide)
    (by decide) (by decide) (by decide) (by decide) (by decide)
    (by intro i h; cases h; decide)
    (by decide) (by decide)
/-!  Markdown segmentation (C3) and the prose rewriter (C4).

The source splits a document into code blocks and prose with
`re.split(CODE_BLOCK_REGEX, ...)` where
`CODE_BLOCK_REGEX = (?<=\n\n)((?P<CB>````*).*?\n.*?\n(?P=CB))(?=\n\n)` under
DOTALL, and splits prose into inline-code spans with
`CODE_INLINE_REGEX = ((?P<BT>``*)[^\r\n]*?(?P=BT))`. re.split inserts every
capture group into the result list; the filters then remove the all-backtick
group-2 pieces, and two trim steps remove the `\n\n` padding added around the
input. The scanners below reproduce the engine's behaviour: leftmost match,
greedy fence (longest run first, down to 3, resp. 1), lazy interior
(earliest newline first), exact backreference, and the look-around checks. -/

def btList (j : Nat) : List Char := List.replicate j '`'

def btRunLen : List Char → Nat
  | [] => 0
  | c :: rest => if c = '`' then btRunLen rest + 1 else 0

def startsWithNlNl : List Char → Bool
  | c :: d :: _ => c = '\n' && d = '\n'
  | _ => false

/-- Search for the lazy second `.*?\n` of CODE_BLOCK_RAW followed by the
backreference (j backticks) and the `(?=\n\n)` lookahead: earliest newline
whose continuation is the closing fence followed by a blank line. -/
def closeSearch (j : Nat) : List Char → Option (List Char × List Char)
  | [] => none
  | c :: rest =>
    if c = '\n' ∧ rest.take j = btList j ∧ startsWithNlNl (rest.drop j) = true then
      some ('\n' :: btList j, rest.drop j)
    else
      (closeSearch j rest).map (fun r => (c :: r.1, r.2))

/-- Search for the lazy first `.*?\n` of CODE_BLOCK_RAW: earliest newline from
which closeSearch succeeds. -/
def openSearch (j : Nat) : List Char → Option (List Char × List Char)
  | [] => none
  | c :: rest =>
    if c = '\n' then
      match closeSearch j rest with
      | some (m, w) => some ('\n' :: m, w)
      | none => (openSearch j rest).map (fun r => (c :: r.1, r.2))
    else (openSearch j rest).map (fun r => (c :: r.1, r.2))

/-- Greedy `(?P<CB>````*)`: try fence lengths from the full run down to 3. -/
def tryCB (u : List Char) : Nat → Option (List Char × List Char × List Char)
  | 0 => none
  | j + 1 =>
    if j + 1 < 3 then none
    else
      match openSearch (j + 1) (u.drop (j + 1)) with
      | some (m, w) => some (btList (j + 1) ++ m, btList (j + 1), w)
      | none => tryCB u j

/-- Leftmost match of CODE_BLOCK_REGEX: the two characters before the current
suffix are carried for the `(?<=\n\n)` lookbehind. Returns
(pre, group 1, group 2 = fence, rest). -/
def blockScanAux : Char → Char → List Char → Option (List Char × List Char × List Char × List Char)
  | _, _, [] => none
  | c1, c2, c :: rest =>
    if c1 = '\n' ∧ c2 = '\n' then
      match tryCB (c :: rest) (btRunLen (c :: rest)) with
      | some (m, f, w) => some ([], m, f, w)
      | none => (blockScanAux c2 c rest).map (fun r => (c :: r.1, r.2.1, r.2.2.1, r.2.2.2))
    else (blockScanAux c2 c rest).map (fun r => (c :: r.1, r.2.1, r.2.2.1, r.2.2.2))

/-- re.split(CODE_BLOCK_REGEX, s): pieces are pre, group 1, group 2, repeated,
then the tail. fuel bounds the number of matches. -/
def reSplitCodeBlock : Nat → Char → Char → List Char → List (List Char)
  | 0, _, _, u => [u]
  | fuel + 1, c1, c2, u =>
    match blockScanAux c1 c2 u with
    | some (pre, m, f, w) => pre :: m :: f :: reSplitCodeBlock fuel '`' '`' w
    | none => [u]

/-- re.match(r"^````*$", elm) is not None: three-or-more backticks, optionally
followed by a single final newline ($ matches before it). -/
def isFence3Only (l : List Char) : Bool :=
  decide (3 ≤ btRunLen l) &&
    (decide (l.drop (btRunLen l) = []) || decide (l.drop (btRunLen l) = ['\n']))

def trimHeadBlocks : List (List Char) → List (List Char)
  | [] => []
  | b :: rest => if b = ['\n', '\n'] then rest else (b.drop 2) :: rest

def trimTailBlocks : List (List Char) → List (List Char)
  | [] => []
  | [b] => if b = ['\n', '\n'] then [] else [b.dropLast.dropLast]
  | b :: rest => b :: trimTailBlocks rest

def markdown_code_block_split (text : List Char) : List (List Char) :=
  let s := '\n' :: '\n' :: (text ++ ['\n', '\n'])
  let pieces := reSplitCodeBlock (s.length + 1) 'x' 'x' s
  trimTailBlocks (trimHeadBlocks (pieces.filter (fun e => !(isFence3Only e))))

/-- Lazy `[^\r\n]*?` of CODE_INLINE_REGEX followed by the backreference:
earliest point where j backticks follow, the content all non-newline. -/
def inlineClose (j : Nat) : List Char → Option (List Char × List Char)
  | [] => none
  | c :: rest =>
    if (c :: rest).take j = btList j then some ([], (c :: rest).drop j)
    else if c = '\r' ∨ c = '\n' then none
    else (inlineClose j rest).map (fun r => (c :: r.1, r.2))

/-- Greedy `(?P<BT>``*)`: try run lengths from the full run down to 1. -/
def inlineTry (u : List Char) : Nat → Option (List Char × List Char × List Char)
  | 0 => none
  | j + 1 =>
    match inlineClose (j + 1) (u.drop (j + 1)) with
    | some (content, w) => some (btList (j + 1) ++ content ++ btList (j + 1), btList (j + 1), w)
    | none => inlineTry u j

/-- Leftmost match of CODE_INLINE_REGEX: (pre, group 1, group 2 = BT, rest). -/
def inlineScan : List Char → Option (List Char × List Char × List Char × List Char)
  | [] => none
  | c :: rest =>
    match inlineTry (c :: rest) (btRunLen (c :: rest)) with
    | some (m, f, w) => some ([], m, f, w)
    | none => (inlineScan rest).map (fun r => (c :: r.1, r.2.1, r.2.2.1, r.2.2.2))

def reSplitInline : Nat → List Char → List (List Char)
  | 0, u => [u]
  | fuel + 1, u =>
    match inlineScan u with
    | some (pre, m, f, w) => pre :: m :: f :: reSplitInline fuel w
    | none => [u]

/-- re.match(r"^``*$", elm) is not None: one-or-more backticks, optionally
followed by a single final newline. -/
def isTicksOnly (l : List Char) : Bool :=
  decide (1 ≤ btRunLen l) &&
    (decide (l.drop (btRunLen l) = []) || decide (l.drop (btRunLen l) = ['\n']))

def markdown_code_inline_split (text : List Char) : List (List Char) :=
  ((reSplitInline (text.length + 1) text).filter
      (fun e => !(isTicksOnly e))).filter (fun e => !e.isEmpty)

/-- Whether CODE_BLOCK_REGEX_2 (no look-arounds) matches anchored at the head:
some fence length j with 3 ≤ j ≤ leading run and two newlines then the
closing fence somewhere after. -/
def closeHit (j : Nat) : List Char → Bool
  | [] => false
  | c :: rest => (decide (c = '\n') && decide (rest.take j = btList j)) || closeHit j rest

def openHit (j : Nat) : List Char → Bool
  | [] => false
  | c :: rest => (decide (c = '\n') && closeHit j rest) || openHit j rest

def cbTry2 (u : List Char) : Nat → Bool
  | 0 => false
  | j + 1 => (decide (3 ≤ j + 1) && openHit (j + 1) (u.drop (j + 1))) || cbTry2 u j

def cbMatch2 (u : List Char) : Bool := cbTry2 u (btRunLen u)

/-- Whether CODE_INLINE_REGEX matches anchored at the head. -/
def inlineCloseHit (j : Nat) : List Char → Bool
  | [] => false
  | c :: rest =>
    decide ((c :: rest).take j = btList j) ||
      (!(decide (c = '\r') || decide (c = '\n')) && inlineCloseHit j rest)

def inlineTryHit (u : List Char) : Nat → Bool
  | 0 => false
  | j + 1 => inlineCloseHit (j + 1) (u.drop (j + 1)) || inlineTryHit u j

def inlineMatch (u : List Char) : Bool := inlineTryHit u (btRunLen u)

def catLists {α : Type} : List (List α) → List α
  | [] => []
  | x :: rest => x ++ catLists rest

def markdown_replace_inline_text (f : List Char → List Char) (block : List Char) : List Char :=
  catLists ((markdown_code_inline_split block).map (fun x => if inlineMatch x then x else f x))

def markdown_replace_block_text (f : List Char → List Char) (text : List Char) : List Char :=
  catLists ((markdown_code_block_split text).map (fun b => if cbMatch2 b then b else f b))

def markdown_replace_text (f : List Char → List Char) (text : List Char) : List Char :=
  markdown_replace_block_text (markdown_replace_inline_text f) (markdown_normalize text)

def markdown_segment (text : List Char) : List (List Char) :=
  catLists ((markdown_code_block_split text).map
    (fun b => if cbMatch2 b then [b] else markdown_code_inline_split b))


-- ## C3 lemma stack

theorem btList_succ (j : Nat) : btList (j + 1) = '`' :: btList j := rfl

theorem btList_concat (j : Nat) : btList (j + 1) = btList j ++ ['`'] := by
  simp [btList, List.replicate_succ']

theorem btRunLen_btList (j : Nat) : btRunLen (btList j) = j := by
  induction j with
  | zero => rfl
  | succ n ih =>
    have : btRunLen ('`' :: btList n) = btRunLen (btList n) + 1 := by
      simp [btRunLen]
    simp only [btList_succ]
    rw [this, ih]

theorem take_of_btRun (j : Nat) : ∀ (l : List Char), j ≤ btRunLen l →
    btList j ++ l.drop j = l := by
  induction j with
  | zero => intro l _; simp [btList]
  | succ n ih =>
    intro l hle
    cases l with
    | nil => simp [btRunLen] at hle
    | cons c rest =>
      by_cases hc : c = '`'
      · subst hc
        simp only [btRunLen, if_pos rfl] at hle
        have := ih rest (Nat.le_of_succ_le_succ hle)
        simpa [btList_succ] using this
      · simp [btRunLen, hc] at hle

theorem closeSearch_spec (j : Nat) : ∀ (v m w : List Char),
    closeSearch j v = some (m, w) →
    v = m ++ w ∧ (∃ B, m = B ++ '\n' :: btList j) ∧ startsWithNlNl w = true := by
  intro v
  induction v with
  | nil => intro m w h; simp [closeSearch] at h
  | cons c rest ih =>
    intro m w h
    by_cases hc : c = '\n' ∧ rest.take j = btList j ∧ startsWithNlNl (rest.drop j) = true
    · rw [closeSearch, if_pos hc] at h
      simp only [Option.some.injEq, Prod.mk.injEq] at h
      obtain ⟨h1, h2⟩ := h
      subst h1; subst h2
      obtain ⟨hcn, htake, hla⟩ := hc
      subst hcn
      refine ⟨?_, ⟨[], by simp⟩, hla⟩
      rw [List.cons_append]
      conv_lhs => rw [← List.take_append_drop j rest, htake]
    · rw [closeSearch, if_neg hc] at h
      cases hrec : closeSearch j rest with
      | none => rw [hrec] at h; exact absurd h (by simp)
      | some r =>
        obtain ⟨m1, w1⟩ := r
        rw [hrec] at h
        simp only [Option.map_some', Option.some.injEq, Prod.mk.injEq] at h
        obtain ⟨h1, h2⟩ := h
        obtain ⟨hv, ⟨B, hB⟩, hla⟩ := ih m1 w1 hrec
        subst h1; subst h2
        exact ⟨by simp [hv], ⟨c :: B, by simp [hB]⟩, hla⟩

theorem openSearch_spec (j : Nat) : ∀ (v m w : List Char),
    openSearch j v = some (m, w) →
    v = m ++ w ∧ (∃ A B, m = A ++ '\n' :: (B ++ '\n' :: btList j)) ∧
      startsWithNlNl w = true := by
  intro v
  induction v with
  | nil => intro m w h; simp [openSearch] at h
  | cons c rest ih =>
    intro m w h
    by_cases hc : c = '\n'
    · rw [openSearch, if_pos hc] at h
      cases hcs : closeSearch j rest with
      | some r =>
        obtain ⟨m3, w1⟩ := r
        rw [hcs] at h
        simp only [Option.some.injEq, Prod.mk.injEq] at h
        obtain ⟨h1, h2⟩ := h
        obtain ⟨hv, ⟨B, hB⟩, hla⟩ := closeSearch_spec j rest m3 w1 hcs
        subst h1; subst h2; subst hc
        exact ⟨by simp [hv], ⟨[], B, by simp [hB]⟩, hla⟩
      | none =>
        rw [hcs] at h
        cases hrec : openSearch j rest with
        | none => rw [hrec] at h; exact absurd h (by simp)
        | some r =>
          obtain ⟨m1, w1⟩ := r
          rw [hrec] at h
          simp only [Option.map_some', Option.some.injEq, Prod.mk.injEq] at h
          obtain ⟨h1, h2⟩ := h
          obtain ⟨hv, ⟨A, B, hAB⟩, hla⟩ := ih m1 w1 hrec
          subst h1; subst h2
          exact ⟨by simp [hv], ⟨c :: A, B, by simp [hAB]⟩, hla⟩
    · rw [openSearch, if_neg hc] at h
      cases hrec : openSearch j rest with
      | none => rw [hrec] at h; exact absurd h (by simp)
      | some r =>
        obtain ⟨m1, w1⟩ := r
        rw [hrec] at h
        simp only [Option.map_some', Option.some.injEq, Prod.mk.injEq] at h
        obtain ⟨h1, h2⟩ := h
        obtain ⟨hv, ⟨A, B, hAB⟩, hla⟩ := ih m1 w1 hrec
        subst h1; subst h2
        exact ⟨by simp [hv], ⟨c :: A, B, by simp [hAB]⟩, hla⟩

theorem tryCB_spec (u : List Char) : ∀ (jmax : Nat) (m f w : List Char),
    jmax ≤ btRunLen u → tryCB u jmax = some (m, f, w) →
    u = m ++ w ∧
    (∃ jj A B, 3 ≤ jj ∧ f = btList jj ∧
      m = btList jj ++ (A ++ '\n' :: (B ++ '\n' :: btList jj))) ∧
    startsWithNlNl w = true := by
  intro jmax
  induction jmax with
  | zero => intro m f w _ h; simp [tryCB] at h
  | succ n ih =>
    intro m f w hle h
    rw [tryCB] at h
    by_cases h3 : n + 1 < 3
    · rw [if_pos h3] at h; exact absurd h (by simp)
    · rw [if_neg h3] at h
      cases hos : openSearch (n + 1) (u.drop (n + 1)) with
      | some r =>
        obtain ⟨m2, w1⟩ := r
        rw [hos] at h
        simp only [Option.some.injEq, Prod.mk.injEq] at h
        obtain ⟨h1, h2, h3'⟩ := h
        obtain ⟨hv, ⟨A, B, hAB⟩, hla⟩ := openSearch_spec (n + 1) _ m2 w1 hos
        subst h1; subst h2; subst h3'
        refine ⟨?_, ⟨n + 1, A, B, by omega, rfl, by rw [hAB]⟩, hla⟩
        conv_lhs => rw [← take_of_btRun (n + 1) u hle]
        rw [hv]
        simp
      | none =>
        rw [hos] at h
        exact ih m f w (Nat.le_of_succ_le hle) h

theorem btRunLen_decomp (l : List Char) : btList (btRunLen l) ++ l.drop (btRunLen l) = l :=
  take_of_btRun (btRunLen l) l (Nat.le_refl _)

theorem fence3_false_of (l : List Char) (hnl : '\n' ∈ l) (hlast : l.getLast? = some '`') :
    isFence3Only l = false := by
  have hdec := btRunLen_decomp l
  rw [isFence3Only]
  have hne : ¬ l.drop (btRunLen l) = [] := by
    intro he
    rw [he, List.append_nil] at hdec
    rw [← hdec] at hnl
    simp [btList] at hnl
  have hnnl : ¬ l.drop (btRunLen l) = ['\n'] := by
    intro he
    rw [he] at hdec
    rw [← hdec] at hlast
    rw [List.getLast?_concat] at hlast
    simp at hlast
  simp [hne, hnnl]

theorem fence3_false_head (c : Char) (t : List Char) (hc : ¬ c = '`') :
    isFence3Only (c :: t) = false := by
  simp [isFence3Only, btRunLen, hc]

theorem fence3_nil : isFence3Only [] = false := by
  simp [isFence3Only, btRunLen]

theorem fence3_btList (k : Nat) (hk : 3 ≤ k) : isFence3Only (btList k) = true := by
  have h1 : btRunLen (btList k) = k := btRunLen_btList k
  have h2 : (btList k).drop k = [] := by
    apply List.drop_eq_nil_of_le
    simp [btList]
  simp [isFence3Only, h1, h2, hk]

theorem g1_shape_not_fence (jj : Nat) (A B m : List Char) (hjj : 3 ≤ jj)
    (hm : m = btList jj ++ (A ++ '\n' :: (B ++ '\n' :: btList jj))) :
    isFence3Only m = false := by
  apply fence3_false_of
  · simp [hm]
  · rw [hm]
    obtain ⟨k, hk⟩ : ∃ k, jj = k + 1 := ⟨jj - 1, by omega⟩
    have hsp : '\n' :: btList jj = ('\n' :: btList k) ++ ['`'] := by
      rw [hk, btList_concat]; simp
    rw [hsp]
    rw [show btList jj ++ (A ++ '\n' :: (B ++ (('\n' :: btList k) ++ ['`']))) =
        (btList jj ++ (A ++ '\n' :: (B ++ ('\n' :: btList k)))) ++ ['`'] by simp]
    exact List.getLast?_concat _

theorem blockScanAux_spec : ∀ (u : List Char) (c1 c2 : Char) (pre m f w : List Char),
    blockScanAux c1 c2 u = some (pre, m, f, w) →
    u = pre ++ (m ++ w) ∧ isFence3Only m = false ∧ isFence3Only f = true ∧
      startsWithNlNl w = true ∧ (pre = [] ∨ pre.head? = u.head?) := by
  intro u
  induction u with
  | nil => intro c1 c2 pre m f w h; simp [blockScanAux] at h
  | cons c rest ih =>
    intro c1 c2 pre m f w h
    by_cases hc : c1 = '\n' ∧ c2 = '\n'
    · rw [blockScanAux, if_pos hc] at h
      cases htc : tryCB (c :: rest) (btRunLen (c :: rest)) with
      | some r =>
        obtain ⟨m1, f1, w1⟩ := r
        rw [htc] at h
        simp only [Option.some.injEq, Prod.mk.injEq] at h
        obtain ⟨h1, h2, h3, h4⟩ := h
        subst h1; subst h2; subst h3; subst h4
        obtain ⟨hu, ⟨jj, A, B, hjj, hf, hm⟩, hla⟩ :=
          tryCB_spec (c :: rest) (btRunLen (c :: rest)) _ _ _ (Nat.le_refl _) htc
        refine ⟨by simpa using hu, g1_shape_not_fence jj A B _ hjj hm, ?_, hla, Or.inl rfl⟩
        rw [hf]; exact fence3_btList jj hjj
      | none =>
        rw [htc] at h
        cases hrec : blockScanAux c2 c rest with
        | none => rw [hrec] at h; exact absurd h (by simp)
        | some r =>
          obtain ⟨p1, m1, f1, w1⟩ := r
          rw [hrec] at h
          simp only [Option.map_some', Option.some.injEq, Prod.mk.injEq] at h
          obtain ⟨h1, h2, h3, h4⟩ := h
          subst h1; subst h2; subst h3; subst h4
          obtain ⟨hu, hm, hf, hla, _⟩ := ih c2 c p1 m1 f1 w1 hrec
          exact ⟨by simp [hu], hm, hf, hla, Or.inr rfl⟩
    · rw [blockScanAux, if_neg hc] at h
      cases hrec : blockScanAux c2 c rest with
      | none => rw [hrec] at h; exact absurd h (by simp)
      | some r =>
        obtain ⟨p1, m1, f1, w1⟩ := r
        rw [hrec] at h
        simp only [Option.map_some', Option.some.injEq, Prod.mk.injEq] at h
        obtain ⟨h1, h2, h3, h4⟩ := h
        subst h1; subst h2; subst h3; subst h4
        obtain ⟨hu, hm, hf, hla, _⟩ := ih c2 c p1 m1 f1 w1 hrec
        exact ⟨by simp [hu], hm, hf, hla, Or.inr rfl⟩

theorem catLists_append {α : Type} (x y : List (List α)) :
    catLists (x ++ y) = catLists x ++ catLists y := by
  induction x with
  | nil => simp [catLists]
  | cons a t ih => simp [catLists, ih]

theorem fence3_false_of_nlnl (u : List Char) (h : startsWithNlNl u = true) :
    isFence3Only u = false := by
  cases u with
  | nil => simp [startsWithNlNl] at h
  | cons c rest =>
    cases rest with
    | nil => simp [startsWithNlNl] at h
    | cons d t =>
      simp only [startsWithNlNl, Bool.and_eq_true, decide_eq_true_eq] at h
      exact fence3_false_head c (d :: t) (by simp [h.1])

theorem reSplit_keep : ∀ (fuel : Nat) (c1 c2 : Char) (u : List Char),
    startsWithNlNl u = true →
    ∃ bs bl, (reSplitCodeBlock fuel c1 c2 u).filter (fun e => !(isFence3Only e)) =
        bs ++ [bl] ∧
      catLists (bs ++ [bl]) = u ∧ startsWithNlNl bl = true ∧ bl <:+ u := by
  intro fuel
  induction fuel with
  | zero =>
    intro c1 c2 u hu
    refine ⟨[], u, ?_, by simp [catLists], hu, List.suffix_refl u⟩
    simp [reSplitCodeBlock, fence3_false_of_nlnl u hu]
  | succ n ih =>
    intro c1 c2 u hu
    rw [reSplitCodeBlock]
    cases hscan : blockScanAux c1 c2 u with
    | none =>
      refine ⟨[], u, ?_, by simp [catLists], hu, List.suffix_refl u⟩
      simp [fence3_false_of_nlnl u hu]
    | some r =>
      obtain ⟨pre, m, f, w⟩ := r
      obtain ⟨hu2, hm, hf, hw, hpre⟩ := blockScanAux_spec u c1 c2 pre m f w hscan
      obtain ⟨bs, bl, hfil, hcat, hbl, hsuf⟩ := ih '`' '`' w hw
      have hprekeep : isFence3Only pre = false := by
        rcases hpre with h0 | hh
        · rw [h0]; exact fence3_nil
        · cases pre with
          | nil => exact fence3_nil
          | cons pc pt =>
            cases u with
            | nil => simp at hh
            | cons uc ut =>
              simp only [List.head?_cons, Option.some.injEq] at hh
              subst hh
              cases ut with
              | nil => simp [startsWithNlNl] at hu
              | cons ud ut2 =>
                simp only [startsWithNlNl, Bool.and_eq_true, decide_eq_true_eq] at hu
                exact fence3_false_head _ _ (by simp [hu.1])
      refine ⟨pre :: m :: bs, bl, ?_, ?_, hbl, ?_⟩
      · simp only [List.filter_cons, hprekeep, hm, hf, Bool.not_false, Bool.not_true,
          if_true, if_false]
        rw [hfil]
        simp
      · rw [hu2, show (pre :: m :: bs) ++ [bl] = pre :: m :: (bs ++ [bl]) from rfl]
        simp only [catLists]
        rw [hcat]
      · exact hsuf.trans ⟨pre ++ m, by simp [hu2]⟩

theorem reSplit_none (fuel : Nat) (c1 c2 : Char) (u : List Char)
    (h : blockScanAux c1 c2 u = none) : reSplitCodeBlock fuel c1 c2 u = [u] := by
  cases fuel with
  | zero => rfl
  | succ n => rw [reSplitCodeBlock, h]

theorem dropLast2_concat (l : List Char) (a b : Char) :
    (l ++ [a, b]).dropLast.dropLast = l := by
  rw [show l ++ [a, b] = (l ++ [a]) ++ [b] by simp]
  rw [List.dropLast_concat, List.dropLast_concat]

theorem trimTail_cat : ∀ (bs : List (List Char)) (bl bl' : List Char),
    bl = bl' ++ ['\n', '\n'] →
    catLists (trimTailBlocks (bs ++ [bl])) = catLists bs ++ bl' := by
  intro bs
  induction bs with
  | nil =>
    intro bl bl' hbl
    by_cases hb : bl = ['\n', '\n']
    · have : bl' = [] := by
        have h2 := hbl ▸ hb
        have hlen := congrArg List.length h2
        simp at hlen
        exact hlen
      simp [trimTailBlocks, hb, this, catLists]
    · simp only [List.nil_append, trimTailBlocks, if_neg hb]
      rw [hbl, dropLast2_concat]
      simp [catLists]
  | cons b bs ih =>
    intro bl bl' hbl
    cases bs with
    | nil =>
      have h1 : trimTailBlocks (b :: [bl]) = b :: trimTailBlocks [bl] := rfl
      simp only [List.cons_append, List.nil_append] at h1 ⊢
      rw [h1, show catLists (b :: trimTailBlocks [bl]) =
        b ++ catLists (trimTailBlocks ([] ++ [bl])) from rfl]
      rw [ih bl bl' hbl]
      simp [catLists]
    | cons b2 bs2 =>
      have h1 : trimTailBlocks (b :: (b2 :: bs2) ++ [bl]) =
          b :: trimTailBlocks ((b2 :: bs2) ++ [bl]) := rfl
      simp only [List.cons_append] at h1 ⊢
      rw [h1, show catLists (b :: trimTailBlocks (b2 :: (bs2 ++ [bl]))) =
        b ++ catLists (trimTailBlocks (b2 :: (bs2 ++ [bl]))) from rfl]
      have := ih bl bl' hbl
      simp only [List.cons_append] at this
      rw [this]
      simp [catLists]

theorem suffix_two (bl t : List Char) (a b : Char)
    (hsuf : bl <:+ (t ++ [a, b])) (hlen : 2 ≤ bl.length) :
    ∃ bl', bl = bl' ++ [a, b] := by
  obtain ⟨q, hq⟩ := hsuf
  have hrev := congrArg List.reverse hq
  simp only [List.reverse_append] at hrev
  cases hbr : bl.reverse with
  | nil =>
    have hb0 : bl = [] := by rw [← List.reverse_reverse bl, hbr]; rfl
    rw [hb0] at hlen; simp at hlen
  | cons x zs =>
    cases zs with
    | nil =>
      have hb1 : bl = [x] := by rw [← List.reverse_reverse bl, hbr]; rfl
      rw [hb1] at hlen; simp at hlen
    | cons y z =>
      rw [hbr] at hrev
      have hab : ([a, b] : List Char).reverse = [b, a] := rfl
      rw [hab] at hrev
      simp only [List.cons_append, List.append_assoc] at hrev
      obtain ⟨hx, hy, _⟩ : x = b ∧ y = a ∧ z ++ q.reverse = t.reverse := by
        have h1 := hrev
        injection h1 with e1 h2
        injection h2 with e2 h3
        exact ⟨e1, e2, h3⟩
      refine ⟨z.reverse, ?_⟩
      have : bl = (x :: y :: z).reverse := by rw [← hbr, List.reverse_reverse]
      rw [this, hx, hy]
      simp

theorem trimHead_eq (p : List Char) (R : List (List Char)) :
    trimHeadBlocks (('\n' :: '\n' :: p) :: R) = if p = [] then R else p :: R := by
  by_cases hp : p = []
  · subst hp; simp [trimHeadBlocks]
  · rw [trimHeadBlocks, if_neg (by simp [hp]), if_neg hp]
    rfl

theorem startsWithNlNl_len (u : List Char) (h : startsWithNlNl u = true) :
    2 ≤ u.length := by
  cases u with
  | nil => simp [startsWithNlNl] at h
  | cons c rest =>
    cases rest with
    | nil => simp [startsWithNlNl] at h
    | cons d t => simp

theorem blockScanAux_pad (v : List Char) :
    blockScanAux 'x' 'x' ('\n' :: '\n' :: v) =
      (blockScanAux '\n' '\n' v).map
        (fun r => ('\n' :: '\n' :: r.1, r.2.1, r.2.2.1, r.2.2.2)) := by
  rw [blockScanAux, if_neg (by decide)]
  rw [blockScanAux, if_neg (by decide)]
  cases blockScanAux '\n' '\n' v <;> simp

theorem markdown_code_block_split_lossless (text : List Char) :
    catLists (markdown_code_block_split text) = text := by
  by_cases htext : text = []
  · subst htext; decide
  · have hmain : markdown_code_block_split text =
        trimTailBlocks (trimHeadBlocks
          ((reSplitCodeBlock (('\n' :: '\n' :: (text ++ ['\n', '\n'])).length + 1) 'x' 'x'
            ('\n' :: '\n' :: (text ++ ['\n', '\n']))).filter (fun e => !(isFence3Only e)))) := rfl
    rw [hmain, reSplitCodeBlock, blockScanAux_pad]
    cases hscan : blockScanAux '\n' '\n' (text ++ ['\n', '\n']) with
    | none =>
      simp only [Option.map_none']
      have hkeep : isFence3Only ('\n' :: '\n' :: (text ++ ['\n', '\n'])) = false :=
        fence3_false_head _ _ (by decide)
      simp only [List.filter_cons, hkeep, Bool.not_false, if_true, List.filter_nil]
      rw [trimHead_eq (text ++ ['\n', '\n']) [], if_neg (by simp)]
      have hne : ¬ (text ++ ['\n', '\n'] = ['\n', '\n']) := by
        intro he
        have := congrArg List.length he
        simp at this
        exact htext this
      rw [show trimTailBlocks [text ++ ['\n', '\n']] =
          if text ++ ['\n', '\n'] = ['\n', '\n'] then [] else
            [(text ++ ['\n', '\n']).dropLast.dropLast] from rfl]
      rw [if_neg hne, dropLast2_concat]
      simp [catLists]
    | some r =>
      obtain ⟨p1, m, f, w⟩ := r
      simp only [Option.map_some']
      obtain ⟨hu2, hm, hf, hw, _⟩ :=
        blockScanAux_spec (text ++ ['\n', '\n']) '\n' '\n' p1 m f w hscan
      obtain ⟨bs, bl, hfil, hcat, hbl, hsuf⟩ :=
        reSplit_keep ('\n' :: '\n' :: (text ++ ['\n', '\n'])).length '`' '`' w hw
      have hpre0 : isFence3Only ('\n' :: '\n' :: p1) = false :=
        fence3_false_head _ _ (by decide)
      simp only [List.filter_cons, hpre0, hm, hf, Bool.not_false, Bool.not_true,
        Bool.false_eq_true, Bool.true_eq_false, if_true, if_false, ite_false, ite_true]
      rw [hfil]
      have hsufx : bl <:+ (text ++ ['\n', '\n']) := by
        refine hsuf.trans ⟨p1 ++ m, ?_⟩
        rw [hu2]; simp
      obtain ⟨bl', hbl'⟩ := suffix_two bl text '\n' '\n' hsufx (startsWithNlNl_len bl hbl)
      have hwcat : w = catLists bs ++ bl := by
        rw [← hcat, catLists_append]; simp [catLists]
      have htext2 : text = p1 ++ (m ++ (catLists bs ++ bl')) := by
        have h0 : text ++ ['\n', '\n'] =
            (p1 ++ (m ++ (catLists bs ++ bl'))) ++ ['\n', '\n'] := by
          rw [hu2, hwcat, hbl']
          simp
        exact List.append_cancel_right h0
      rw [trimHead_eq p1 (m :: (bs ++ [bl]))]
      by_cases hp : p1 = []
      · rw [if_pos hp]
        rw [show m :: (bs ++ [bl]) = (m :: bs) ++ [bl] from by simp]
        rw [trimTail_cat (m :: bs) bl bl' hbl']
        rw [htext2, hp]
        simp [catLists]
      · rw [if_neg hp]
        rw [show p1 :: m :: (bs ++ [bl]) = (p1 :: m :: bs) ++ [bl] from by simp]
        rw [trimTail_cat (p1 :: m :: bs) bl bl' hbl']
        rw [htext2]
        simp [catLists]

/-- C3 counterexample: the segmenter is not lossless. On the input "a``b" the
inline-code split finds the match "``" (BT = one backtick, empty content), and
the filter then removes every all-backtick piece, so the segments are ["a", "b"]
and their concatenation "ab" differs from the input. -/
theorem segmenter_concat_drops_stray_backticks :
    catLists (markdown_segment (strL "a``b")) = strL "ab" ∧
      ¬ (strL "ab" = strL "a``b") := by decide

/-- C3 (amended): the code-block split is lossless for every input text:
concatenating its segments in order reproduces the text exactly. The full
segmenter (inline-code split inside each prose block) is lossless exactly on
texts whose prose blocks inline-split losslessly; in general the inline split
drops unmatched all-backtick runs (see the counterexample). -/
theorem segmenter_block_split_lossless_inline_conditional :
    (∀ text : List Char, catLists (markdown_code_block_split text) = text) ∧
    (∀ text : List Char,
      (∀ b ∈ markdown_code_block_split text, cbMatch2 b = false →
        catLists (markdown_code_inline_split b) = b) →
      catLists (markdown_segment text) = text) := by
  constructor
  · exact markdown_code_block_split_lossless
  · intro text hinl
    rw [markdown_segment]
    have : ∀ blocks : List (List Char),
        (∀ b ∈ blocks, cbMatch2 b = false → catLists (markdown_code_inline_split b) = b) →
        catLists (catLists (blocks.map
          (fun b => if cbMatch2 b then [b] else markdown_code_inline_split b))) =
          catLists blocks := by
      intro blocks
      induction blocks with
      | nil => intro _; rfl
      | cons b bt ih =>
        intro hb
        simp only [List.map_cons, catLists, catLists_append]
        rw [ih (fun x hx hcb => hb x (List.mem_cons_of_mem b hx) hcb)]
        by_cases hcb : cbMatch2 b
        · rw [if_pos hcb]
          simp [catLists]
        · rw [if_neg hcb]
          rw [hb b (List.mem_cons_self b bt) (by simpa using hcb)]
    rw [this (markdown_code_block_split text) hinl,
      markdown_code_block_split_lossless text]

/-- Witness for C3: a concrete document on which the full segmenter is
lossless, obtained from the conditional conjunct. -/
theorem segmenter_losslessness_witness :
    catLists (markdown_segment (strL "hello `code` world")) =
      strL "hello `code` world" :=
  segmenter_block_split_lossless_inline_conditional.2
    (strL "hello `code` world") (by decide)

-- ## C4 lemma stack

theorem btRunLen_append_head (k : Nat) (x : Char) (z : List Char) (hx : ¬ x = '`') :
    btRunLen (btList k ++ x :: z) = k := by
  induction k with
  | zero => simp [btList, btRunLen, hx]
  | succ n ih =>
    rw [btList_succ]
    simp only [List.cons_append, btRunLen, if_pos rfl]
    simp only [List.append_eq] at ih ⊢
    rw [ih]
    simp

theorem blockScan_none (u : List Char) : ∀ (c1 c2 : Char),
    (∀ c ∈ u, ¬ c = '`') → blockScanAux c1 c2 u = none := by
  induction u with
  | nil => intro c1 c2 _; rfl
  | cons c rest ih =>
    intro c1 c2 hfree
    have hrun : btRunLen (c :: rest) = 0 := by
      simp [btRunLen, hfree c (List.mem_cons_self c rest)]
    have hrec : blockScanAux c2 c rest = none :=
      ih c2 c (fun x hx => hfree x (List.mem_cons_of_mem c hx))
    by_cases hc : c1 = '\n' ∧ c2 = '\n'
    · rw [blockScanAux, if_pos hc, hrun]
      rw [show tryCB (c :: rest) 0 = none from rfl, hrec]
      rfl
    · rw [blockScanAux, if_neg hc, hrec]
      rfl

theorem blockScan_through (p : List Char) : ∀ (v : List Char) (c1 c2 : Char),
    (∀ c ∈ p, ¬ c = '`') →
    blockScanAux c1 c2 (p ++ '\n' :: '\n' :: v) =
      (blockScanAux '\n' '\n' v).map
        (fun r => ((p ++ ['\n', '\n']) ++ r.1, r.2.1, r.2.2.1, r.2.2.2)) := by
  induction p with
  | nil =>
    intro v c1 c2 _
    simp only [List.nil_append]
    have h1 : btRunLen ('\n' :: '\n' :: v) = 0 := by simp [btRunLen]
    have h2 : btRunLen ('\n' :: v) = 0 := by simp [btRunLen]
    have e1 : ∀ d1 d2 : Char, blockScanAux d1 d2 ('\n' :: '\n' :: v) =
        (blockScanAux d2 '\n' ('\n' :: v)).map
          (fun r => ('\n' :: r.1, r.2.1, r.2.2.1, r.2.2.2)) := by
      intro d1 d2
      by_cases hc : d1 = '\n' ∧ d2 = '\n'
      · rw [blockScanAux, if_pos hc, h1]
        rw [show tryCB ('\n' :: '\n' :: v) 0 = none from rfl]
      · rw [blockScanAux, if_neg hc]
    have e2 : ∀ d2 : Char, blockScanAux d2 '\n' ('\n' :: v) =
        (blockScanAux '\n' '\n' v).map
          (fun r => ('\n' :: r.1, r.2.1, r.2.2.1, r.2.2.2)) := by
      intro d2
      by_cases hc : d2 = '\n' ∧ '\n' = '\n'
      · rw [blockScanAux, if_pos hc, h2]
        rw [show tryCB ('\n' :: v) 0 = none from rfl]
      · rw [blockScanAux, if_neg hc]
    rw [e1 c1 c2, e2 c2]
    cases blockScanAux '\n' '\n' v <;> simp
  | cons x p ih =>
    intro v c1 c2 hfree
    have hx : ¬ x = '`' := hfree x (List.mem_cons_self x p)
    have hrun : btRunLen (x :: (p ++ '\n' :: '\n' :: v)) = 0 := by
      simp [btRunLen, hx]
    have hrec := ih v c2 x (fun c hc => hfree c (List.mem_cons_of_mem x hc))
    have step : blockScanAux c1 c2 (x :: (p ++ '\n' :: '\n' :: v)) =
        (blockScanAux c2 x (p ++ '\n' :: '\n' :: v)).map
          (fun r => (x :: r.1, r.2.1, r.2.2.1, r.2.2.2)) := by
      by_cases hc : c1 = '\n' ∧ c2 = '\n'
      · rw [blockScanAux, if_pos hc, hrun]
        rw [show tryCB (x :: (p ++ '\n' :: '\n' :: v)) 0 = none from rfl]
      · rw [blockScanAux, if_neg hc]
    simp only [List.cons_append]
    rw [step, hrec]
    cases blockScanAux '\n' '\n' v <;> simp

theorem take_ne_btList (k : Nat) (hk : 1 ≤ k) (x : Char) (t : List Char) (hx : ¬ x = '`') :
    ¬ (x :: t).take k = btList k := by
  obtain ⟨n, rfl⟩ : ∃ n, k = n + 1 := ⟨k - 1, by omega⟩
  rw [btList_succ]
  intro h
  simp only [List.take_succ_cons] at h
  exact hx (List.cons.injEq .. ▸ h).1

theorem drop_btList (k : Nat) (z : List Char) : (btList k ++ z).drop k = z := by
  induction k with
  | zero => simp [btList]
  | succ n ih =>
    rw [btList_succ]
    simpa using ih

theorem take_btList_append (k : Nat) (z : List Char) :
    (btList k ++ z).take k = btList k := by
  induction k with
  | zero => simp [btList]
  | succ n ih =>
    rw [btList_succ]
    simp only [List.cons_append, List.take_succ_cons]
    rw [ih]

theorem take_btList_self (k : Nat) : (btList k).take k = btList k := by
  have h := take_btList_append k []
  simpa using h

theorem closeSearch_through (k : Nat) (hk : 1 ≤ k) (S2 : List Char) :
    ∀ Bz : List Char, (∀ c ∈ Bz, ¬ c = '`') →
    closeSearch k (Bz ++ '\n' :: (btList k ++ '\n' :: '\n' :: S2)) =
      some (Bz ++ '\n' :: btList k, '\n' :: '\n' :: S2) := by
  intro Bz
  induction Bz with
  | nil =>
    intro _
    simp only [List.nil_append]
    rw [closeSearch, if_pos ?_]
    · congr 1
      rw [drop_btList]
    · refine ⟨rfl, ?_, ?_⟩
      · exact take_btList_append k _
      · rw [drop_btList]
        rfl
  | cons c Bz ih =>
    intro hfree
    have hc : ¬ c = '`' := hfree c (List.mem_cons_self c Bz)
    have hcond : ¬ (c = '\n' ∧
        (Bz ++ '\n' :: (btList k ++ '\n' :: '\n' :: S2)).take k = btList k ∧
        startsWithNlNl ((Bz ++ '\n' :: (btList k ++ '\n' :: '\n' :: S2)).drop k) = true) := by
      intro ⟨hcn, htk, _⟩
      cases Bz with
      | nil =>
        simp only [List.nil_append] at htk
        obtain ⟨n, rfl⟩ : ∃ n, k = n + 1 := ⟨k - 1, by omega⟩
        rw [btList_succ] at htk
        simp only [List.take_succ_cons] at htk
        exact absurd (List.cons.injEq .. ▸ htk).1 (by decide)
      | cons b Bz2 =>
        exact take_ne_btList k hk b _ (hfree b (List.mem_cons_of_mem c (List.mem_cons_self b Bz2))) htk
    rw [List.cons_append, closeSearch, if_neg hcond,
      ih (fun x hx => hfree x (List.mem_cons_of_mem c hx))]
    rfl

theorem openSearch_at (k : Nat) (hk : 1 ≤ k) (Bz S2 : List Char)
    (hfree : ∀ c ∈ Bz, ¬ c = '`') :
    openSearch k ('\n' :: (Bz ++ '\n' :: (btList k ++ '\n' :: '\n' :: S2))) =
      some ('\n' :: (Bz ++ '\n' :: btList k), '\n' :: '\n' :: S2) := by
  rw [openSearch, if_pos rfl, closeSearch_through k hk S2 Bz hfree]

theorem tryCB_at (k : Nat) (hk : 3 ≤ k) (Bz S2 : List Char)
    (hfree : ∀ c ∈ Bz, ¬ c = '`') :
    tryCB (btList k ++ '\n' :: (Bz ++ '\n' :: (btList k ++ '\n' :: '\n' :: S2))) k =
      some (btList k ++ '\n' :: (Bz ++ '\n' :: btList k), btList k,
        '\n' :: '\n' :: S2) := by
  obtain ⟨n, rfl⟩ : ∃ n, k = n + 1 := ⟨k - 1, by omega⟩
  rw [tryCB, if_neg (by omega)]
  rw [drop_btList (n + 1)]
  rw [openSearch_at (n + 1) (by omega) Bz S2 hfree]

theorem blockScan_at_C (k : Nat) (hk : 3 ≤ k) (Bz S2 : List Char)
    (hfree : ∀ c ∈ Bz, ¬ c = '`') :
    blockScanAux '\n' '\n'
      ((btList k ++ '\n' :: (Bz ++ '\n' :: btList k)) ++ '\n' :: '\n' :: S2) =
      some ([], btList k ++ '\n' :: (Bz ++ '\n' :: btList k), btList k,
        '\n' :: '\n' :: S2) := by
  have hshape : (btList k ++ '\n' :: (Bz ++ '\n' :: btList k)) ++ '\n' :: '\n' :: S2 =
      btList k ++ '\n' :: (Bz ++ '\n' :: (btList k ++ '\n' :: '\n' :: S2)) := by
    simp
  rw [hshape]
  obtain ⟨n, hn⟩ : ∃ n, k = n + 1 := ⟨k - 1, by omega⟩
  have hcons : btList k ++ '\n' :: (Bz ++ '\n' :: (btList k ++ '\n' :: '\n' :: S2)) =
      '`' :: (btList n ++ '\n' :: (Bz ++ '\n' :: (btList k ++ '\n' :: '\n' :: S2))) := by
    rw [hn, btList_succ]
    simp
  rw [hcons, blockScanAux, if_pos ⟨rfl, rfl⟩, ← hcons]
  have hrun : btRunLen (btList k ++ '\n' :: (Bz ++ '\n' ::
      (btList k ++ '\n' :: '\n' :: S2))) = k :=
    btRunLen_append_head k '\n' _ (by decide)
  rw [hrun, tryCB_at k hk Bz S2 hfree]

theorem block_split_at_doc (k : Nat) (hk : 3 ≤ k) (P Bz S : List Char)
    (hP : ∀ c ∈ P, ¬ c = '`') (hB : ∀ c ∈ Bz, ¬ c = '`') (hS : ∀ c ∈ S, ¬ c = '`') :
    markdown_code_block_split
      (P ++ '\n' :: '\n' ::
        ((btList k ++ '\n' :: (Bz ++ '\n' :: btList k)) ++ '\n' :: '\n' :: S)) =
      [P ++ ['\n', '\n'], btList k ++ '\n' :: (Bz ++ '\n' :: btList k),
        '\n' :: '\n' :: S] := by
  have hmain : ∀ t : List Char, markdown_code_block_split t =
      trimTailBlocks (trimHeadBlocks
        ((reSplitCodeBlock (('\n' :: '\n' :: (t ++ ['\n', '\n'])).length + 1) 'x' 'x'
          ('\n' :: '\n' :: (t ++ ['\n', '\n']))).filter (fun e => !(isFence3Only e)))) :=
    fun _ => rfl
  rw [hmain]
  have hpad : '\n' :: '\n' ::
      ((P ++ '\n' :: '\n' ::
        ((btList k ++ '\n' :: (Bz ++ '\n' :: btList k)) ++ '\n' :: '\n' :: S)) ++
        ['\n', '\n']) =
      ('\n' :: '\n' :: P) ++ '\n' :: '\n' ::
        ((btList k ++ '\n' :: (Bz ++ '\n' :: btList k)) ++ '\n' :: '\n' ::
          (S ++ ['\n', '\n'])) := by
    simp
  rw [hpad, reSplitCodeBlock]
  rw [blockScan_through ('\n' :: '\n' :: P) _ 'x' 'x' ?hfreeP]
  case hfreeP =>
    intro c hc
    simp only [List.mem_cons] at hc
    rcases hc with h | h | h
    · subst h; decide
    · subst h; decide
    · exact hP c h
  rw [blockScan_at_C k hk Bz (S ++ ['\n', '\n']) hB]
  simp only [Option.map_some']
  rw [reSplit_none _ '`' '`' _ (blockScan_none _ '`' '`' ?hfree)]
  case hfree =>
    intro c hc
    simp only [List.mem_cons, List.mem_append, List.mem_singleton,
      List.not_mem_nil, or_false] at hc
    rcases hc with h | h | h | h | h
    · subst h; decide
    · subst h; decide
    · exact hS c h
    · subst h; decide
    · subst h; decide
  have hpre : isFence3Only ((('\n' :: '\n' :: P) ++ ['\n', '\n']) ++ []) = false := by
    simp only [List.append_nil, List.cons_append]
    exact fence3_false_head _ _ (by decide)
  have hC : isFence3Only (btList k ++ '\n' :: (Bz ++ '\n' :: btList k)) = false :=
    g1_shape_not_fence k [] Bz _ hk (by simp)
  have hfence : isFence3Only (btList k) = true := fence3_btList k hk
  have hW : isFence3Only ('\n' :: '\n' :: (S ++ ['\n', '\n'])) = false :=
    fence3_false_head _ _ (by decide)
  simp only [List.filter_cons, hpre, hC, hfence, hW, Bool.not_false, Bool.not_true,
    Bool.false_eq_true, Bool.true_eq_false, if_true, if_false, ite_false, ite_true,
    List.filter_nil]
  have hpre2 : (('\n' :: '\n' :: P) ++ ['\n', '\n']) ++ [] =
      '\n' :: '\n' :: (P ++ ['\n', '\n']) := by simp
  rw [hpre2, trimHead_eq (P ++ ['\n', '\n']), if_neg (by simp)]
  have ht1 : trimTailBlocks [(P ++ ['\n', '\n']),
      btList k ++ '\n' :: (Bz ++ '\n' :: btList k),
      '\n' :: '\n' :: (S ++ ['\n', '\n'])] =
      (P ++ ['\n', '\n']) :: (btList k ++ '\n' :: (Bz ++ '\n' :: btList k)) ::
        trimTailBlocks ['\n' :: '\n' :: (S ++ ['\n', '\n'])] := rfl
  rw [ht1]
  rw [show trimTailBlocks ['\n' :: '\n' :: (S ++ ['\n', '\n'])] =
      if '\n' :: '\n' :: (S ++ ['\n', '\n']) = ['\n', '\n'] then [] else
        [('\n' :: '\n' :: (S ++ ['\n', '\n'])).dropLast.dropLast] from rfl]
  rw [if_neg (by simp)]
  rw [show '\n' :: '\n' :: (S ++ ['\n', '\n']) = ('\n' :: '\n' :: S) ++ ['\n', '\n'] from by simp]
  rw [dropLast2_concat]

theorem closeHit_through (k : Nat) (z : List Char) :
    ∀ Bz : List Char, closeHit k (Bz ++ '\n' :: (btList k ++ z)) = true := by
  intro Bz
  induction Bz with
  | nil =>
    simp only [List.nil_append, closeHit]
    rw [take_btList_append]
    simp
  | cons c Bz ih =>
    simp only [List.cons_append, closeHit, List.append_eq, ih, Bool.or_true]

theorem cbMatch2_C (k : Nat) (hk : 3 ≤ k) (Bz : List Char) (z : List Char) :
    cbMatch2 (btList k ++ '\n' :: (Bz ++ '\n' :: (btList k ++ z))) = true := by
  rw [cbMatch2, btRunLen_append_head k '\n' _ (by decide)]
  obtain ⟨n, hn⟩ : ∃ n, k = n + 1 := ⟨k - 1, by omega⟩
  rw [hn, cbTry2, ← hn]
  rw [drop_btList k]
  have hopen : openHit k ('\n' :: (Bz ++ '\n' :: (btList k ++ z))) = true := by
    rw [openHit, closeHit_through k z Bz]
    simp
  rw [hopen]
  have hd : decide (3 ≤ n + 1) = true := decide_eq_true (by omega)
  rw [hn, hd]
  simp

theorem replace_text_keeps_fenced_block (f : List Char → List Char) (P Bz S : List Char) (k : Nat)
    (hk : 3 ≤ k)
    (hP : ∀ c ∈ P, ¬ c = '`') (hB : ∀ c ∈ Bz, ¬ c = '`') (hS : ∀ c ∈ S, ¬ c = '`')
    (hfix : markdown_normalize
        (P ++ '\n' :: '\n' ::
          ((btList k ++ '\n' :: (Bz ++ '\n' :: btList k)) ++ '\n' :: '\n' :: S)) =
      P ++ '\n' :: '\n' ::
        ((btList k ++ '\n' :: (Bz ++ '\n' :: btList k)) ++ '\n' :: '\n' :: S)) :
    ∃ u v, markdown_replace_text f
        (P ++ '\n' :: '\n' ::
          ((btList k ++ '\n' :: (Bz ++ '\n' :: btList k)) ++ '\n' :: '\n' :: S)) =
      u ++ ((btList k ++ '\n' :: (Bz ++ '\n' :: btList k)) ++ v) := by
  rw [markdown_replace_text, hfix, markdown_replace_block_text,
    block_split_at_doc k hk P Bz S hP hB hS]
  have hcb : cbMatch2 (btList k ++ '\n' :: (Bz ++ '\n' :: btList k)) = true := by
    have h0 := cbMatch2_C k hk Bz []
    simpa using h0
  refine ⟨(if cbMatch2 (P ++ ['\n', '\n']) then (P ++ ['\n', '\n'])
            else markdown_replace_inline_text f (P ++ ['\n', '\n'])),
          (if cbMatch2 ('\n' :: '\n' :: S) then ('\n' :: '\n' :: S)
            else markdown_replace_inline_text f ('\n' :: '\n' :: S)), ?_⟩
  simp only [List.map_cons, List.map_nil, catLists, hcb, if_true]
  simp

theorem inlineClose_at (j : Nat) (hj : 1 ≤ j) (cz : List Char) :
    ∀ content : List Char, (∀ x ∈ content, ¬ x = '`') →
      (∀ x ∈ content, ¬ (x = '\r' ∨ x = '\n')) →
      inlineClose j (content ++ btList j ++ cz) = some (content, cz) := by
  intro content
  induction content with
  | nil =>
    intro _ _
    simp only [List.nil_append]
    obtain ⟨n, hn⟩ : ∃ n, j = n + 1 := ⟨j - 1, by omega⟩
    have hcons : btList j ++ cz = '`' :: (btList n ++ cz) := by
      rw [hn, btList_succ]; simp
    rw [hcons, inlineClose, ← hcons, if_pos (take_btList_append j cz)]
    rw [drop_btList]
  | cons x ct ih =>
    intro hfree hnl
    have hx : ¬ x = '`' := hfree x (List.mem_cons_self x ct)
    have hxnl : ¬ (x = '\r' ∨ x = '\n') := hnl x (List.mem_cons_self x ct)
    have hcond : ¬ ((x :: (ct ++ btList j ++ cz)).take j = btList j) :=
      take_ne_btList j hj x _ hx
    simp only [List.cons_append]
    rw [inlineClose, if_neg hcond, if_neg hxnl]
    rw [ih (fun y hy => hfree y (List.mem_cons_of_mem x hy))
        (fun y hy => hnl y (List.mem_cons_of_mem x hy))]
    rfl

theorem inlineTry_at (j : Nat) (hj : 1 ≤ j) (content cz : List Char)
    (hfree : ∀ x ∈ content, ¬ x = '`')
    (hnl : ∀ x ∈ content, ¬ (x = '\r' ∨ x = '\n')) :
    inlineTry ((btList j ++ content ++ btList j) ++ cz) j =
      some (btList j ++ content ++ btList j, btList j, cz) := by
  obtain ⟨n, hn⟩ : ∃ n, j = n + 1 := ⟨j - 1, by omega⟩
  rw [hn, inlineTry, ← hn]
  rw [show ((btList j ++ content ++ btList j) ++ cz) =
      btList j ++ (content ++ btList j ++ cz) from by simp]
  rw [drop_btList]
  rw [inlineClose_at j hj cz content hfree hnl]

theorem inlineScan_at (j : Nat) (hj : 1 ≤ j) (content cz : List Char)
    (hfree : ∀ x ∈ content, ¬ x = '`') (hcn : content ≠ [])
    (hnl : ∀ x ∈ content, ¬ (x = '\r' ∨ x = '\n')) :
    inlineScan ((btList j ++ content ++ btList j) ++ cz) =
      some ([], btList j ++ content ++ btList j, btList j, cz) := by
  obtain ⟨n, hn⟩ : ∃ n, j = n + 1 := ⟨j - 1, by omega⟩
  obtain ⟨x, ct, hx⟩ : ∃ x ct, content = x :: ct := by
    cases content with
    | nil => exact absurd rfl hcn
    | cons x ct => exact ⟨x, ct, rfl⟩
  have hcons : (btList j ++ content ++ btList j) ++ cz =
      '`' :: (btList n ++ (content ++ btList j ++ cz)) := by
    rw [hn, btList_succ]; simp
  have hrun : btRunLen ((btList j ++ content ++ btList j) ++ cz) = j := by
    rw [show ((btList j ++ content ++ btList j) ++ cz) =
        btList j ++ (x :: (ct ++ btList j ++ cz)) from by simp [hx]]
    exact btRunLen_append_head j x _ (hfree x (by simp [hx]))
  rw [hcons, inlineScan, ← hcons, hrun]
  rw [inlineTry_at j hj content cz hfree hnl]

theorem inlineScan_none (u : List Char) (h : ∀ x ∈ u, ¬ x = '`') :
    inlineScan u = none := by
  induction u with
  | nil => rfl
  | cons x rest ih =>
    have hrun : btRunLen (x :: rest) = 0 := by
      simp [btRunLen, h x (List.mem_cons_self x rest)]
    rw [inlineScan, hrun]
    rw [show inlineTry (x :: rest) 0 = none from rfl]
    rw [ih (fun y hy => h y (List.mem_cons_of_mem x hy))]
    rfl

theorem inlineScan_through (a : List Char) : ∀ (w : List Char),
    (∀ x ∈ a, ¬ x = '`') →
    inlineScan (a ++ w) =
      (inlineScan w).map (fun r => (a ++ r.1, r.2.1, r.2.2.1, r.2.2.2)) := by
  induction a with
  | nil =>
    intro w _
    simp only [List.nil_append]
    cases inlineScan w <;> simp
  | cons x a ih =>
    intro w hfree
    have hrun : btRunLen (x :: (a ++ w)) = 0 := by
      simp [btRunLen, hfree x (List.mem_cons_self x a)]
    simp only [List.cons_append]
    rw [inlineScan, hrun]
    rw [show inlineTry (x :: (a ++ w)) 0 = none from rfl]
    rw [ih w (fun y hy => hfree y (List.mem_cons_of_mem x hy))]
    cases inlineScan w <;> simp

theorem reSplitInline_none (fuel : Nat) (u : List Char) (h : inlineScan u = none) :
    reSplitInline fuel u = [u] := by
  cases fuel with
  | zero => rfl
  | succ n => rw [reSplitInline, h]

theorem ticks_false_free (a : List Char) (h : ∀ x ∈ a, ¬ x = '`') :
    isTicksOnly a = false := by
  cases a with
  | nil => rfl
  | cons x t =>
    have hx : ¬ x = '`' := h x (List.mem_cons_self x t)
    have hrun : btRunLen (x :: t) = 0 := by simp [btRunLen, hx]
    simp [isTicksOnly, hrun]

theorem ticks_true_btList (j : Nat) (hj : 1 ≤ j) : isTicksOnly (btList j) = true := by
  have h1 : btRunLen (btList j) = j := btRunLen_btList j
  have h2 : (btList j).drop j = [] := by
    apply List.drop_eq_nil_of_le
    simp [btList]
  simp [isTicksOnly, h1, h2, hj]

theorem ticks_false_span (j : Nat) (hj : 1 ≤ j) (content : List Char)
    (hfree : ∀ x ∈ content, ¬ x = '`') (hcn : content ≠ []) :
    isTicksOnly (btList j ++ content ++ btList j) = false := by
  obtain ⟨x, ct, hx⟩ : ∃ x ct, content = x :: ct := by
    cases content with
    | nil => exact absurd rfl hcn
    | cons x ct => exact ⟨x, ct, rfl⟩
  have hrun : btRunLen (btList j ++ content ++ btList j) = j := by
    rw [show btList j ++ content ++ btList j =
        btList j ++ (x :: (ct ++ btList j)) from by simp [hx]]
    exact btRunLen_append_head j x _ (hfree x (by simp [hx]))
  have hdrop : (btList j ++ content ++ btList j).drop j = content ++ btList j := by
    rw [show btList j ++ content ++ btList j =
        btList j ++ (content ++ btList j) from by simp]
    exact drop_btList j _
  have hne : ¬ (content ++ btList j = []) := by
    simp [hx]
  have hnnl : ¬ (content ++ btList j = ['\n']) := by
    rw [hx]
    intro he
    simp only [List.cons_append, List.cons.injEq] at he
    obtain ⟨_, he2⟩ := he
    obtain ⟨n, hn⟩ : ∃ n, j = n + 1 := ⟨j - 1, by omega⟩
    rw [hn, btList_concat] at he2
    have := congrArg List.length he2
    simp at this
  rw [isTicksOnly, hrun, hdrop]
  simp [hne, hnnl]

theorem inlineCloseHit_at (j : Nat) (hj : 1 ≤ j) :
    ∀ content : List Char,
      (∀ x ∈ content, ¬ (x = '\r' ∨ x = '\n')) →
      inlineCloseHit j (content ++ btList j) = true := by
  intro content
  induction content with
  | nil =>
    intro _
    obtain ⟨n, hn⟩ : ∃ n, j = n + 1 := ⟨j - 1, by omega⟩
    have hcons : ([] : List Char) ++ btList j = '`' :: btList n := by
      rw [hn, btList_succ]; simp
    rw [hcons, inlineCloseHit, ← hcons]
    have : (([] : List Char) ++ btList j).take j = btList j := by
      simp [take_btList_self]
    rw [this]
    simp
  | cons x ct ih =>
    intro hnl
    have hxnl : ¬ (x = '\r' ∨ x = '\n') := hnl x (List.mem_cons_self x ct)
    simp only [List.cons_append, inlineCloseHit, List.append_eq]
    rw [ih (fun y hy => hnl y (List.mem_cons_of_mem x hy))]
    have h1 : (decide (x = '\r') || decide (x = '\n')) = false := by
      simp only [Bool.or_eq_false_iff, decide_eq_false_iff_not]
      exact ⟨fun h => hxnl (Or.inl h), fun h => hxnl (Or.inr h)⟩
    simp [h1]

theorem inlineMatch_span (j : Nat) (hj : 1 ≤ j) (content : List Char)
    (hfree : ∀ x ∈ content, ¬ x = '`') (hcn : content ≠ [])
    (hnl : ∀ x ∈ content, ¬ (x = '\r' ∨ x = '\n')) :
    inlineMatch (btList j ++ content ++ btList j) = true := by
  obtain ⟨x, ct, hx⟩ : ∃ x ct, content = x :: ct := by
    cases content with
    | nil => exact absurd rfl hcn
    | cons x ct => exact ⟨x, ct, rfl⟩
  have hrun : btRunLen (btList j ++ content ++ btList j) = j := by
    rw [show btList j ++ content ++ btList j =
        btList j ++ (x :: (ct ++ btList j)) from by simp [hx]]
    exact btRunLen_append_head j x _ (hfree x (by simp [hx]))
  rw [inlineMatch, hrun]
  obtain ⟨n, hn⟩ : ∃ n, j = n + 1 := ⟨j - 1, by omega⟩
  rw [hn, inlineTryHit, ← hn]
  have hdrop : (btList j ++ content ++ btList j).drop j = content ++ btList j := by
    rw [show btList j ++ content ++ btList j =
        btList j ++ (content ++ btList j) from by simp]
    exact drop_btList j _
  rw [hdrop, inlineCloseHit_at j hj content hnl]
  simp

theorem inline_split_at (j : Nat) (hj : 1 ≤ j) (a cz content : List Char)
    (ha : ∀ x ∈ a, ¬ x = '`') (hc : ∀ x ∈ cz, ¬ x = '`')
    (hcf : ∀ x ∈ content, ¬ x = '`') (hcn : content ≠ [])
    (hnl : ∀ x ∈ content, ¬ (x = '\r' ∨ x = '\n')) :
    markdown_code_inline_split (a ++ (btList j ++ content ++ btList j) ++ cz) =
      (if a = [] then [] else [a]) ++ (btList j ++ content ++ btList j) ::
        (if cz = [] then [] else [cz]) := by
  have hmain : ∀ t : List Char, markdown_code_inline_split t =
      ((reSplitInline (t.length + 1) t).filter
        (fun e => !(isTicksOnly e))).filter (fun e => !e.isEmpty) := fun _ => rfl
  rw [hmain]
  have hassoc : a ++ (btList j ++ content ++ btList j) ++ cz =
      a ++ ((btList j ++ content ++ btList j) ++ cz) := by simp
  rw [hassoc, reSplitInline]
  rw [inlineScan_through a _ ha, inlineScan_at j hj content cz hcf hcn hnl]
  simp only [Option.map_some']
  rw [reSplitInline_none _ cz (inlineScan_none cz hc)]
  have hka : isTicksOnly a = false := ticks_false_free a ha
  have hkspan : isTicksOnly (btList j ++ content ++ btList j) = false :=
    ticks_false_span j hj content hcf hcn
  have hkbt : isTicksOnly (btList j) = true := ticks_true_btList j hj
  have hkc : isTicksOnly cz = false := ticks_false_free cz hc
  have hspanne : (btList j ++ content ++ btList j).isEmpty = false := by
    obtain ⟨n, hn⟩ : ∃ n, j = n + 1 := ⟨j - 1, by omega⟩
    rw [show btList j ++ content ++ btList j =
        '`' :: (btList n ++ content ++ btList j) from by rw [hn, btList_succ]; simp]
    rfl
  simp only [List.filter_cons, hka, hkspan, hkbt, hkc, List.append_nil,
    Bool.not_false, Bool.not_true, Bool.false_eq_true, Bool.true_eq_false,
    if_true, if_false, ite_false, ite_true, List.filter_nil, hspanne]
  by_cases hae : a = []
  · subst hae
    by_cases hce : cz = []
    · subst hce; simp
    · have : cz.isEmpty = false := by
        cases cz with
        | nil => exact absurd rfl hce
        | cons _ _ => rfl
      simp [this, hce]
  · have hane : a.isEmpty = false := by
      cases a with
      | nil => exact absurd rfl hae
      | cons _ _ => rfl
    by_cases hce : cz = []
    · subst hce; simp [hane, hae]
    · have hcne : cz.isEmpty = false := by
        cases cz with
        | nil => exact absurd rfl hce
        | cons _ _ => rfl
      simp [hane, hcne, hae, hce]

theorem replace_inline_keeps_span (f : List Char → List Char) (a cz content : List Char) (j : Nat)
    (hj : 1 ≤ j)
    (ha : ∀ x ∈ a, ¬ x = '`') (hc : ∀ x ∈ cz, ¬ x = '`')
    (hcf : ∀ x ∈ content, ¬ x = '`') (hcn : content ≠ [])
    (hnl : ∀ x ∈ content, ¬ (x = '\r' ∨ x = '\n')) :
    ∃ u v, markdown_replace_inline_text f
        (a ++ (btList j ++ content ++ btList j) ++ cz) =
      u ++ ((btList j ++ content ++ btList j) ++ v) := by
  rw [markdown_replace_inline_text,
    inline_split_at j hj a cz content ha hc hcf hcn hnl]
  have hms : inlineMatch (btList j ++ content ++ btList j) = true :=
    inlineMatch_span j hj content hcf hcn hnl
  by_cases hae : a = []
  · by_cases hce : cz = []
    · refine ⟨[], [], ?_⟩
      subst hae; subst hce
      simp only [if_pos rfl, List.nil_append, List.map_cons, List.map_nil,
        catLists, hms, if_true]
    · refine ⟨[], (if inlineMatch cz then cz else f cz), ?_⟩
      subst hae
      simp only [if_pos rfl, if_neg hce, List.nil_append, List.map_cons, List.map_nil,
        catLists, hms, if_true]
      simp
  · by_cases hce : cz = []
    · refine ⟨(if inlineMatch a then a else f a), [], ?_⟩
      subst hce
      simp only [if_neg hae, if_pos rfl, List.map_cons, List.map_nil,
        catLists, hms, if_true]
    · refine ⟨(if inlineMatch a then a else f a),
        (if inlineMatch cz then cz else f cz), ?_⟩
      simp only [if_neg hae, if_neg hce, List.map_cons, List.map_nil,
        catLists, hms, if_true]
      simp

/-- C4 counterexample: markdown_replace_text applies markdown_normalize to the
whole document before splitting, so a fenced code block whose interior has a
line with trailing whitespace is not left byte-identical, even under the
identity transform: the block text occurs in the input but nowhere in the
output. -/
theorem rewriter_normalizes_code_block_interior :
    ((strL "```\nx \n```") <:+: (strL "p\n\n```\nx \n```\n\nq")) ∧
    ¬ ((strL "```\nx \n```") <:+:
        markdown_replace_text (fun s => s) (strL "p\n\n```\nx \n```\n\nq")) := by
  decide

/-- C4 (amended): on a markdown_normalize-fixed document made of a fenced code
block (fence length k, 3 or more) set off by blank lines, with backtick-free
prose before and after and backtick-free block body, markdown_replace_text
keeps the block text byte-identical for every transform; and on a prose block,
the inline rewriter keeps a backtick-delimited span (backtick-free, non-empty,
newline-free content, backtick-free context) byte-identical. In general the
claim is false: markdown_replace_text normalizes the whole document first, which
rewrites code-block interiors (see the counterexample). -/
theorem rewriter_code_blind_in_backtick_free_context :
    (∀ (f : List Char → List Char) (P B S : List Char) (k : Nat),
      3 ≤ k → (∀ c ∈ P, ¬ c = '`') → (∀ c ∈ B, ¬ c = '`') → (∀ c ∈ S, ¬ c = '`') →
      markdown_normalize
          (P ++ '\n' :: '\n' ::
            ((btList k ++ '\n' :: (B ++ '\n' :: btList k)) ++ '\n' :: '\n' :: S)) =
        P ++ '\n' :: '\n' ::
          ((btList k ++ '\n' :: (B ++ '\n' :: btList k)) ++ '\n' :: '\n' :: S) →
      ∃ u v, markdown_replace_text f
          (P ++ '\n' :: '\n' ::
            ((btList k ++ '\n' :: (B ++ '\n' :: btList k)) ++ '\n' :: '\n' :: S)) =
        u ++ ((btList k ++ '\n' :: (B ++ '\n' :: btList k)) ++ v)) ∧
    (∀ (f : List Char → List Char) (a c content : List Char) (j : Nat),
      1 ≤ j → (∀ x ∈ a, ¬ x = '`') → (∀ x ∈ c, ¬ x = '`') →
      (∀ x ∈ content, ¬ x = '`') → content ≠ [] →
      (∀ x ∈ content, ¬ (x = '\r' ∨ x = '\n')) →
      ∃ u v, markdown_replace_inline_text f
          (a ++ (btList j ++ content ++ btList j) ++ c) =
        u ++ ((btList j ++ content ++ btList j) ++ v)) := by
  constructor
  · intro f P B S k hk hP hB hS hfix
    exact replace_text_keeps_fenced_block f P B S k hk hP hB hS hfix
  · intro f a c content j hj ha hc hcf hcn hnl
    exact replace_inline_keeps_span f a c content j hj ha hc hcf hcn hnl

/-- Witness for C4: both conjuncts applied to concrete documents with
non-trivial transforms. -/
theorem rewriter_code_blind_witness :
    (∃ u v, markdown_replace_text (fun s => s ++ s) (strL "p\n\n```\nx\n```\n\nq") =
      u ++ (strL "```\nx\n```" ++ v)) ∧
    (∃ u v, markdown_replace_inline_text (fun _ => strL "REPLACED")
        (strL "see `let x` here") = u ++ (strL "`let x`" ++ v)) := by
  constructor
  · have h := rewriter_code_blind_in_backtick_free_context.1 (fun s => s ++ s) (strL "p") (strL "x") (strL "q") 3
      (by omega) (by decide) (by decide) (by decide) (by decide)
    simpa using h
  · have h := rewriter_code_blind_in_backtick_free_context.2 (fun _ => strL "REPLACED") (strL "see ") (strL " here")
      (strL "let x") 1 (by omega) (by decide) (by decide) (by decide)
      (by decide) (by decide)
    simpa using h
